import Mathlib

/-!
Verification of the AIShow graph-store / scheduler / sync core.

Shallow embedding of `src/src/AIModel.cpp`, `src/src/NodeEditor.cpp` and
`src/src/SyncManager.cpp`.

Conventions used throughout:

* C++ `int` is embedded as `Int` (ids and counters stay far from the
  32-bit range in every scenario considered); `float` as `ℚ` (the
  simulated progress schedules use small decimal steps whose ordering
  and 1.0 endpoint are unaffected by binary rounding); `std::vector`
  as `List`; `std::string` as `String`.
* `portIndex_` (an `unordered_map` from port id to an index into
  `allPorts_`) always maps an id to the index of its *last* occurrence
  in `allPorts_`: `AddNode` and `LoadFromFile` assign
  `portIndex_[id] = allPorts_.size()-1` after each push, and
  `RemoveNode` rebuilds the map with a forward loop whose later
  assignments win.  `GetPort` is therefore embedded directly as the
  last element of `allPorts_` with the requested id.
* A store mutation returns, besides the new store, the number of times
  it reaches the `if (onModelChange_) onModelChange_();` call site
  (0 or 1); this is the "fires a change notification" observable.
* An out-of-bounds `std::vector` access (undefined behavior in the
  source) is embedded as `none` in an `Option`-valued result.
* The `metadata` field of `Edge` is never read by any code under
  consideration and is omitted.
-/

structure Port where
  id : Int
  name : String
  dataType : String
  isInput : Bool
  nodeId : Int
deriving DecidableEq, Repr

structure Edge where
  id : Int
  fromPortId : Int
  toPortId : Int
  dataType : String
deriving DecidableEq, Repr

structure AINode where
  id : Int
  type : String
  name : String
  parameters : List (String × String)
  inputPorts : List Port
  outputPorts : List Port
  boundUINodeId : Int
deriving DecidableEq, Repr

structure AIModel where
  nodes : List AINode
  edges : List Edge
  allPorts : List Port
  nextPortId : Int
  nextEdgeId : Int
deriving DecidableEq, Repr

/-- The store as the `AIModel` constructor builds it
(`nextPortId_{1000}`, `nextEdgeId_{2000}` are in-class initializers). -/
def initialModel : AIModel :=
  { nodes := [], edges := [], allPorts := [], nextPortId := 1000, nextEdgeId := 2000 }

/-- `AIModel::GetPort`: `portIndex_` lookup followed by the index read;
by the last-occurrence invariant of `portIndex_` this is the last port
in `allPorts_` carrying the id. -/
def AIModel.getPort (m : AIModel) (portId : Int) : Option Port :=
  m.allPorts.reverse.find? (fun p => p.id == portId)

/-- Registration of one caller-supplied port inside `AIModel::AddNode`:
a non-positive id is replaced by a fresh one, the owner id is stamped,
and the port is appended to the global port list. -/
def AIModel.registerPort (m : AIModel) (ownerId : Int) (p : Port) : AIModel × Port :=
  let p1 := if p.id ≤ 0 then { p with id := m.nextPortId } else p
  let m1 := if p.id ≤ 0 then { m with nextPortId := m.nextPortId + 1 } else m
  let p2 := { p1 with nodeId := ownerId }
  ({ m1 with allPorts := m1.allPorts ++ [p2] }, p2)

/-- `AIModel::AddNode`: synthesizes one default input / output port when
the respective list is empty, otherwise registers the supplied ports;
appends the node and fires one notification. -/
def AIModel.addNode (m : AIModel) (node : AINode) : AIModel × Nat :=
  let resIn :=
    if node.inputPorts.isEmpty then
      let ip : Port := { id := m.nextPortId, name := "input", dataType := "any",
                         isInput := true, nodeId := node.id }
      ({ m with nextPortId := m.nextPortId + 1, allPorts := m.allPorts ++ [ip] }, [ip])
    else
      node.inputPorts.foldl
        (fun (acc : AIModel × List Port) p =>
          let r := acc.1.registerPort node.id p
          (r.1, acc.2 ++ [r.2])) (m, [])
  let m1 := resIn.1
  let resOut :=
    if node.outputPorts.isEmpty then
      let op : Port := { id := m1.nextPortId, name := "output", dataType := "any",
                         isInput := false, nodeId := node.id }
      ({ m1 with nextPortId := m1.nextPortId + 1, allPorts := m1.allPorts ++ [op] }, [op])
    else
      node.outputPorts.foldl
        (fun (acc : AIModel × List Port) p =>
          let r := acc.1.registerPort node.id p
          (r.1, acc.2 ++ [r.2])) (m1, [])
  let m2 := resOut.1
  let newNode := { node with inputPorts := resIn.2, outputPorts := resOut.2 }
  ({ m2 with nodes := m2.nodes ++ [newNode] }, 1)

/-- Whether an edge endpoint resolves (via `GetPort`) to a port owned by
`nodeId` — the predicate of the `remove_if` in `AIModel::RemoveNode`. -/
def AIModel.portOwnedBy (m : AIModel) (portId nodeId : Int) : Bool :=
  match m.getPort portId with
  | some p => p.nodeId == nodeId
  | none => false

/-- `AIModel::RemoveNode`: erases edges touching the node's ports (the
`GetPort` lookups run against the pre-removal port list), then the
node's ports, then the node itself; fires one notification
unconditionally. -/
def AIModel.removeNode (m : AIModel) (nodeId : Int) : AIModel × Nat :=
  let edges1 := m.edges.filter
    (fun e => !(m.portOwnedBy e.fromPortId nodeId || m.portOwnedBy e.toPortId nodeId))
  let ports1 := m.allPorts.filter (fun p => p.nodeId != nodeId)
  let nodes1 := m.nodes.filter (fun n => n.id != nodeId)
  ({ m with edges := edges1, allPorts := ports1, nodes := nodes1 }, 1)

/-- The in-place assignment loop of `AIModel::UpdateNode`: the first
node with a matching id is replaced wholesale (`break` afterwards). -/
def updateFirst : List AINode → AINode → List AINode
  | [], _ => []
  | n :: rest, u => if n.id == u.id then u :: rest else n :: updateFirst rest u

/-- `AIModel::UpdateNode`: fires one notification whether or not a node
matched. -/
def AIModel.updateNode (m : AIModel) (u : AINode) : AIModel × Nat :=
  ({ m with nodes := updateFirst m.nodes u }, 1)

/-- `AIModel::ValidateEdge`. -/
def AIModel.validateEdge (m : AIModel) (e : Edge) : Bool :=
  match m.getPort e.fromPortId, m.getPort e.toPortId with
  | some fromPort, some toPort =>
    if fromPort.isInput || !toPort.isInput then false
    else if fromPort.nodeId == toPort.nodeId then false
    else if fromPort.dataType != "any" && toPort.dataType != "any" &&
            fromPort.dataType != toPort.dataType then false
    else true
  | _, _ => false

/-- `AIModel::AddEdge`: validation failure is a silent no-op; on success
a non-positive id is replaced by a fresh edge id, the edge is appended,
and one notification fires. -/
def AIModel.addEdge (m : AIModel) (e : Edge) : AIModel × Nat :=
  if !(m.validateEdge e) then (m, 0)
  else
    let newEdge := if e.id ≤ 0 then { e with id := m.nextEdgeId } else e
    let m1 := if e.id ≤ 0 then { m with nextEdgeId := m.nextEdgeId + 1 } else m
    ({ m1 with edges := m1.edges ++ [newEdge] }, 1)

/-- `AIModel::RemoveEdge`: fires one notification whether or not an edge
matched. -/
def AIModel.removeEdge (m : AIModel) (edgeId : Int) : AIModel × Nat :=
  ({ m with edges := m.edges.filter (fun e => e.id != edgeId) }, 1)

/-- The node search in `AIModel::AddConnection`: a plain loop assigning
the pointer on every match without a break, so the last match wins. -/
def AIModel.findNodeLast (m : AIModel) (nid : Int) : Option AINode :=
  m.nodes.reverse.find? (fun n => n.id == nid)

/-- `std::vector` indexing with a C++ `int` index: negative or too-large
indices are out of bounds (undefined behavior), embedded as `none`. -/
def listGetI {α : Type} (l : List α) (i : Int) : Option α :=
  if i < 0 then none else l.get? i.toNat

/-- `AIModel::AddConnection` (legacy index-based interface).  The bound
checks only guard `index >= size` over signed ints, so a negative index
passes them and the subsequent `outputPorts[fromOutput]` /
`inputPorts[toInput]` access is out of bounds (`none`).  The fresh edge
id is consumed before `AddEdge` runs. -/
def AIModel.addConnection (m : AIModel) (fromNode toNode fromOutput toInput : Int) :
    Option (AIModel × Nat) :=
  match m.findNodeLast fromNode, m.findNodeLast toNode with
  | some fromNodePtr, some toNodePtr =>
    if (fromNodePtr.outputPorts.length : Int) ≤ fromOutput then some (m, 0)
    else if (toNodePtr.inputPorts.length : Int) ≤ toInput then some (m, 0)
    else
      match listGetI fromNodePtr.outputPorts fromOutput,
            listGetI toNodePtr.inputPorts toInput with
      | some fp, some tp =>
        let edge : Edge := { id := m.nextEdgeId, fromPortId := fp.id, toPortId := tp.id,
                             dataType := "any" }
        some (AIModel.addEdge { m with nextEdgeId := m.nextEdgeId + 1 } edge)
      | _, _ => none
  | _, _ => some (m, 0)

/-! ### Concrete stores used by witnesses and counterexamples -/

/-- Input port of node 1 in the two-node demonstration store. -/
def n1in : Port := { id := 1000, name := "input", dataType := "any", isInput := true, nodeId := 1 }

/-- Output port of node 1 in the two-node demonstration store. -/
def n1out : Port := { id := 1001, name := "output", dataType := "any", isInput := false, nodeId := 1 }

/-- Input port of node 2 in the two-node demonstration store. -/
def n2in : Port := { id := 1002, name := "input", dataType := "any", isInput := true, nodeId := 2 }

/-- Output port of node 2 in the two-node demonstration store. -/
def n2out : Port := { id := 1003, name := "output", dataType := "any", isInput := false, nodeId := 2 }

/-- A well-formed store with two nodes, four ports and no edges. -/
def mTwo : AIModel :=
  { nodes := [{ id := 1, type := "Conv2D", name := "A", parameters := [],
                inputPorts := [n1in], outputPorts := [n1out], boundUINodeId := -1 },
              { id := 2, type := "MaxPool", name := "B", parameters := [],
                inputPorts := [n2in], outputPorts := [n2out], boundUINodeId := -1 }],
    edges := [], allPorts := [n1in, n1out, n2in, n2out],
    nextPortId := 1004, nextEdgeId := 2000 }

/-- A valid edge for `mTwo`: node 1's output port to node 2's input port,
with a non-positive id so a fresh one is assigned. -/
def eGood : Edge := { id := 0, fromPortId := 1001, toPortId := 1002, dataType := "any" }

/-- A node whose id (7) is unknown to `initialModel` and `mTwo`. -/
def uC5 : AINode :=
  { id := 7, type := "T", name := "x", parameters := [], inputPorts := [],
    outputPorts := [], boundUINodeId := -1 }

/-! ### C4: AddEdge validation -/

/-- The semantic edge invariant of the spec: both ports registered,
source an output, destination an input, different owning nodes, and
concrete data types (non-`"any"`) must agree. -/
def EdgeOK (m : AIModel) (e : Edge) : Prop :=
  ∃ fp tp, m.getPort e.fromPortId = some fp ∧ m.getPort e.toPortId = some tp ∧
    fp.isInput = false ∧ tp.isInput = true ∧ fp.nodeId ≠ tp.nodeId ∧
    (fp.dataType = "any" ∨ tp.dataType = "any" ∨ fp.dataType = tp.dataType)

theorem validateEdge_iff (m : AIModel) (e : Edge) :
    m.validateEdge e = true ↔ EdgeOK m e := by
  unfold AIModel.validateEdge EdgeOK
  cases hf : m.getPort e.fromPortId with
  | none => simp [hf]
  | some fp =>
    cases ht : m.getPort e.toPortId with
    | none => simp [ht]
    | some tp =>
      simp only [Option.some.injEq]
      constructor
      · intro h
        refine ⟨fp, tp, rfl, rfl, ?_⟩
        by_cases h1 : (fp.isInput || !tp.isInput) = true
        · rw [if_pos h1] at h; cases h
        · rw [if_neg h1] at h
          simp only [Bool.or_eq_true, Bool.not_eq_true'] at h1
          push_neg at h1
          by_cases h2 : (fp.nodeId == tp.nodeId) = true
          · rw [if_pos h2] at h; cases h
          · rw [if_neg h2] at h
            by_cases h3 : (fp.dataType != "any" && tp.dataType != "any" &&
                fp.dataType != tp.dataType) = true
            · rw [if_pos h3] at h; cases h
            · simp only [beq_iff_eq] at h2
              simp only [Bool.and_eq_true, bne_iff_ne, ne_eq, not_and] at h3
              refine ⟨by simpa using h1.1, by simpa using h1.2, h2, ?_⟩
              by_contra hc
              push_neg at hc
              exact h3 ⟨hc.1, hc.2.1⟩ hc.2.2
      · rintro ⟨fp2, tp2, hfp, htp, hin, hout, hne, hdt⟩
        subst hfp
        subst htp
        have h1 : (fp.isInput || !tp.isInput) = false := by simp [hin, hout]
        have h2 : (fp.nodeId == tp.nodeId) = false := by simp [hne]
        have h3 : (fp.dataType != "any" && tp.dataType != "any" &&
            fp.dataType != tp.dataType) = false := by
          rcases hdt with h | h | h <;> simp [h]
        simp [h1, h2, h3]

/-- C4: `AddEdge` leaves the edge set unchanged and fires no change
notification exactly when validation fails — a referenced port id
unregistered, source not an output or destination not an input, both
ports on one node, or differing concrete data types; otherwise it
appends the edge (assigning a fresh edge id when the supplied id is not
positive) and fires one notification. -/
theorem C4_addEdge_validation (m : AIModel) (e : Edge) :
    ((m.addEdge e).1 = m ∧ (m.addEdge e).2 = 0 ↔ ¬ EdgeOK m e)
    ∧ (EdgeOK m e →
        (m.addEdge e).1.edges
            = m.edges ++ [if e.id ≤ 0 then { e with id := m.nextEdgeId } else e]
          ∧ (m.addEdge e).1.nodes = m.nodes
          ∧ (m.addEdge e).1.allPorts = m.allPorts
          ∧ (m.addEdge e).2 = 1) := by
  by_cases hv : m.validateEdge e = true
  · have hok : EdgeOK m e := (validateEdge_iff m e).mp hv
    have h1 : (m.addEdge e).1.edges
        = m.edges ++ [if e.id ≤ 0 then { e with id := m.nextEdgeId } else e] := by
      unfold AIModel.addEdge; rw [hv]; by_cases he : e.id ≤ 0 <;> simp [he]
    have h2 : (m.addEdge e).1.nodes = m.nodes := by
      unfold AIModel.addEdge; rw [hv]; by_cases he : e.id ≤ 0 <;> simp [he]
    have h3 : (m.addEdge e).1.allPorts = m.allPorts := by
      unfold AIModel.addEdge; rw [hv]; by_cases he : e.id ≤ 0 <;> simp [he]
    have h4 : (m.addEdge e).2 = 1 := by
      unfold AIModel.addEdge; rw [hv]; simp
    refine ⟨⟨?_, fun hno => absurd hok hno⟩, fun _ => ⟨h1, h2, h3, h4⟩⟩
    rintro ⟨-, h0⟩
    rw [h0] at h4
    simp at h4
  · have hok : ¬ EdgeOK m e := fun h => hv ((validateEdge_iff m e).mpr h)
    have hred : m.addEdge e = (m, 0) := by
      unfold AIModel.addEdge
      rw [Bool.not_eq_true] at hv
      rw [hv]
      simp
    exact ⟨by simp [hred, hok], fun h => absurd h hok⟩

/-- Witness for C4: adding the concrete valid edge `eGood` to `mTwo`
appends it with the fresh id 2000 and fires one notification. -/
theorem C4_addEdge_validation_witness :
    (AIModel.addEdge mTwo eGood).1.edges = mTwo.edges ++ [{ eGood with id := 2000 }]
      ∧ (AIModel.addEdge mTwo eGood).2 = 1 := by
  have hok : EdgeOK mTwo eGood :=
    ⟨n1out, n2in, by decide, by decide, by decide, by decide, by decide, by decide⟩
  have h := (C4_addEdge_validation mTwo eGood).2 hok
  refine ⟨?_, h.2.2.2⟩
  have := h.1
  simpa [eGood, mTwo] using this

/-! ### C5: mutations with unknown ids / bad legacy indices -/

theorem updateFirst_no_match (l : List AINode) (u : AINode)
    (h : ∀ n ∈ l, n.id ≠ u.id) : updateFirst l u = l := by
  induction l with
  | nil => rfl
  | cons n rest ih =>
    unfold updateFirst
    rw [if_neg, ih (fun k hk => h k (List.mem_cons_of_mem n hk))]
    simp only [beq_iff_eq]
    exact h n (List.mem_cons_self n rest)

theorem getPort_mem (m : AIModel) (pid : Int) (p : Port)
    (h : m.getPort pid = some p) : p ∈ m.allPorts := by
  have := List.mem_of_find?_eq_some h
  exact List.mem_reverse.mp this

theorem findNodeLast_none (m : AIModel) (nid : Int)
    (h : ∀ n ∈ m.nodes, n.id ≠ nid) : m.findNodeLast nid = none := by
  apply List.find?_eq_none.mpr
  intro n hn
  simp only [beq_iff_eq]
  exact h n (List.mem_reverse.mp hn)

/-- C5 counterexample: `UpdateNode` with a node id unknown to the store
leaves the store unchanged but still fires a change notification,
contradicting the claim that no notification is fired for unknown-id
mutations. -/
theorem C5_unknown_id_counterexample :
    (AIModel.updateNode initialModel uC5).1 = initialModel
      ∧ (AIModel.updateNode initialModel uC5).2 = 1 := by
  decide

/-- C5 (amended): `AddConnection` with an unknown node id or an
out-of-range *non-negative* legacy index is a silent no-op with no
notification and no error; with a negative index it passes the
upper-bound-only guards and performs an out-of-bounds port-vector
access (undefined behavior, embedded as `none`); `UpdateNode`,
`RemoveNode` and `RemoveEdge` with no matching entity leave the store
unchanged and propagate no error, but still fire one change
notification. -/
theorem C5_amended_noop_behavior
    (m : AIModel) (nid a b c d : Int) (u : AINode) (eid : Int)
    (hports : ∀ p ∈ m.allPorts, ∃ n ∈ m.nodes, p.nodeId = n.id)
    (hnid : ∀ n ∈ m.nodes, n.id ≠ nid)
    (hu : ∀ n ∈ m.nodes, n.id ≠ u.id)
    (heid : ∀ e ∈ m.edges, e.id ≠ eid) :
    (m.addConnection nid b c d = some (m, 0))
    ∧ (m.addConnection a nid c d = some (m, 0))
    ∧ (∀ fn, m.findNodeLast a = some fn →
        (fn.outputPorts.length : Int) ≤ c → m.addConnection a b c d = some (m, 0))
    ∧ (∀ fn tn, m.findNodeLast a = some fn → m.findNodeLast b = some tn →
        c < (fn.outputPorts.length : Int) → (tn.inputPorts.length : Int) ≤ d →
        m.addConnection a b c d = some (m, 0))
    ∧ (∀ fn tn, m.findNodeLast a = some fn → m.findNodeLast b = some tn →
        c < 0 → d < (tn.inputPorts.length : Int) →
        m.addConnection a b c d = none)
    ∧ (m.updateNode u = (m, 1))
    ∧ (m.removeNode nid = (m, 1))
    ∧ (m.removeEdge eid = (m, 1)) := by
  have hfind : m.findNodeLast nid = none := findNodeLast_none m nid hnid
  refine ⟨?_, ?_, ?_, ?_, ?_, ?_, ?_, ?_⟩
  · unfold AIModel.addConnection
    rw [hfind]
  · unfold AIModel.addConnection
    rw [hfind]
    cases m.findNodeLast a <;> rfl
  · intro fn hfn hc
    unfold AIModel.addConnection
    rw [hfn]
    cases hb : m.findNodeLast b with
    | none => rfl
    | some tn =>
      dsimp only
      rw [if_pos hc]
  · intro fn tn hfn htn hc hd
    unfold AIModel.addConnection
    rw [hfn, htn]
    dsimp only
    rw [if_neg (by omega), if_pos hd]
  · intro fn tn hfn htn hc hd
    unfold AIModel.addConnection
    rw [hfn, htn]
    dsimp only
    rw [if_neg (by omega), if_neg (by omega)]
    have hnone : listGetI fn.outputPorts c = none := by
      unfold listGetI
      rw [if_pos hc]
    rw [hnone]
  · unfold AIModel.updateNode
    rw [updateFirst_no_match m.nodes u hu]
  · unfold AIModel.removeNode
    have hedges : m.edges.filter
        (fun e => !(m.portOwnedBy e.fromPortId nid || m.portOwnedBy e.toPortId nid))
        = m.edges := by
      apply List.filter_eq_self.mpr
      intro e _
      have hfrom : m.portOwnedBy e.fromPortId nid = false := by
        unfold AIModel.portOwnedBy
        cases hp : m.getPort e.fromPortId with
        | none => rfl
        | some p =>
          obtain ⟨n, hn, hpn⟩ := hports p (getPort_mem m _ p hp)
          simp only [beq_eq_false_iff_ne, ne_eq, hpn]
          exact hnid n hn
      have hto : m.portOwnedBy e.toPortId nid = false := by
        unfold AIModel.portOwnedBy
        cases hp : m.getPort e.toPortId with
        | none => rfl
        | some p =>
          obtain ⟨n, hn, hpn⟩ := hports p (getPort_mem m _ p hp)
          simp only [beq_eq_false_iff_ne, ne_eq, hpn]
          exact hnid n hn
      rw [hfrom, hto]
      rfl
    have hps : m.allPorts.filter (fun p => p.nodeId != nid) = m.allPorts := by
      apply List.filter_eq_self.mpr
      intro p hp
      obtain ⟨n, hn, hpn⟩ := hports p hp
      simp only [bne_iff_ne, ne_eq, hpn]
      exact hnid n hn
    have hns : m.nodes.filter (fun n => n.id != nid) = m.nodes := by
      apply List.filter_eq_self.mpr
      intro n hn
      simp only [bne_iff_ne, ne_eq]
      exact hnid n hn
    rw [hedges, hps, hns]
  · unfold AIModel.removeEdge
    have : m.edges.filter (fun e => e.id != eid) = m.edges := by
      apply List.filter_eq_self.mpr
      intro e he
      simp only [bne_iff_ne, ne_eq]
      exact heid e he
    rw [this]

/-- Witness for the amended C5 on the concrete two-node store: an
unknown from-node id is a silent rejection, while an unknown-id
`UpdateNode` is a notified no-op. -/
theorem C5_amended_noop_behavior_witness :
    AIModel.addConnection mTwo 99 2 0 0 = some (mTwo, 0)
      ∧ AIModel.updateNode mTwo uC5 = (mTwo, 1) := by
  have h := C5_amended_noop_behavior mTwo 99 1 2 0 0 uC5 9999
    (by decide) (by decide) (by decide) (by decide)
  exact ⟨h.1, h.2.2.2.2.2.1⟩

/-! ### C9: node-id uniqueness -/

/-- The node-id view of the store. -/
def nodeIds (m : AIModel) : List Int := m.nodes.map AINode.id

/-- A node with id 1 and no ports, as a caller could pass to `AddNode`. -/
def nC9 : AINode :=
  { id := 1, type := "T", name := "a", parameters := [], inputPorts := [],
    outputPorts := [], boundUINodeId := -1 }

/-- A second node, with id 2. -/
def n2C9 : AINode :=
  { id := 2, type := "U", name := "b", parameters := [], inputPorts := [],
    outputPorts := [], boundUINodeId := -1 }

/-- C9 counterexample: `AddNode` performs no duplicate-id check, so
calling it twice with the same node id yields a store whose node-id list
`[1, 1]` is not duplicate-free. -/
theorem C9_unique_ids_counterexample :
    ¬ (nodeIds ((initialModel.addNode nC9).1.addNode nC9).1).Nodup := by
  decide

/-- The Graph Store mutations of `AIModel.cpp` as first-class operations
(the file-load path is excluded: it replaces the store wholesale with
whatever ids the file supplies). -/
inductive StoreOp where
  | addNodeOp (n : AINode)
  | updateNodeOp (n : AINode)
  | removeNodeOp (nodeId : Int)
  | addEdgeOp (e : Edge)
  | removeEdgeOp (edgeId : Int)
  | addConnectionOp (fromNode toNode fromOutput toInput : Int)
deriving DecidableEq, Repr

def applyOp (m : AIModel) : StoreOp → Option (AIModel × Nat)
  | .addNodeOp n => some (m.addNode n)
  | .updateNodeOp n => some (m.updateNode n)
  | .removeNodeOp i => some (m.removeNode i)
  | .addEdgeOp e => some (m.addEdge e)
  | .removeEdgeOp i => some (m.removeEdge i)
  | .addConnectionOp a b c d => m.addConnection a b c d

/-- Freshness of an operation: an `AddNode` must carry an id not already
in the store; every other operation is unrestricted. -/
def opFresh (m : AIModel) : StoreOp → Bool
  | .addNodeOp n => m.nodes.all (fun k => k.id != n.id)
  | _ => true

def runOps : AIModel → List StoreOp → Option AIModel
  | m, [] => some m
  | m, op :: rest =>
    match applyOp m op with
    | none => none
    | some r => runOps r.1 rest

/-- Every `AddNode` along the run is fresh at the moment it executes. -/
def freshRun : AIModel → List StoreOp → Bool
  | _, [] => true
  | m, op :: rest =>
    opFresh m op &&
      (match applyOp m op with
       | none => true
       | some r => freshRun r.1 rest)

theorem registerFold_nodes (ownerId : Int) (ps : List Port) (acc : AIModel × List Port) :
    (ps.foldl (fun (acc : AIModel × List Port) p =>
        let r := acc.1.registerPort ownerId p
        (r.1, acc.2 ++ [r.2])) acc).1.nodes = acc.1.nodes := by
  induction ps generalizing acc with
  | nil => rfl
  | cons p rest ih =>
    rw [List.foldl_cons, ih]
    unfold AIModel.registerPort
    by_cases hp : p.id ≤ 0 <;> simp [hp]

theorem addNode_nodeIds (m : AIModel) (n : AINode) :
    nodeIds (m.addNode n).1 = nodeIds m ++ [n.id] := by
  unfold AIModel.addNode nodeIds
  by_cases hin : n.inputPorts.isEmpty <;>
    by_cases hout : n.outputPorts.isEmpty <;>
      simp [hin, hout, registerFold_nodes]

theorem updateFirst_ids (l : List AINode) (u : AINode) :
    (updateFirst l u).map AINode.id = l.map AINode.id := by
  induction l with
  | nil => rfl
  | cons n rest ih =>
    unfold updateFirst
    by_cases h : (n.id == u.id) = true
    · rw [if_pos h]
      simp only [List.map_cons, ih]
      have : u.id = n.id := (beq_iff_eq.mp h).symm
      rw [this]
    · rw [if_neg h]
      simp [ih]

theorem addEdge_nodes (m : AIModel) (e : Edge) : (m.addEdge e).1.nodes = m.nodes := by
  unfold AIModel.addEdge
  by_cases hv : m.validateEdge e <;> by_cases he : e.id ≤ 0 <;> simp [hv, he]

theorem applyOp_nodeIds_nodup (m : AIModel) (op : StoreOp)
    (h0 : (nodeIds m).Nodup) (hf : opFresh m op = true) :
    ∀ r, applyOp m op = some r → (nodeIds r.1).Nodup := by
  intro r hr
  cases op with
  | addNodeOp n =>
    injection hr with hr
    subst hr
    rw [addNode_nodeIds]
    simp only [List.nodup_append, List.nodup_cons, List.not_mem_nil, not_false_iff,
      List.nodup_nil, and_true, true_and]
    refine ⟨h0, ?_⟩
    intro x hx hmem
    simp only [List.mem_singleton] at hmem
    subst hmem
    simp only [opFresh, List.all_eq_true, bne_iff_ne, ne_eq] at hf
    obtain ⟨k, hk, hkid⟩ := List.mem_map.mp hx
    exact hf k hk (by rw [hkid])
  | updateNodeOp n =>
    injection hr with hr
    subst hr
    show ((updateFirst m.nodes n).map AINode.id).Nodup
    rw [updateFirst_ids]
    exact h0
  | removeNodeOp i =>
    injection hr with hr
    subst hr
    exact h0.sublist ((m.nodes.filter_sublist).map AINode.id)
  | addEdgeOp e =>
    injection hr with hr
    subst hr
    show ((m.addEdge e).1.nodes.map AINode.id).Nodup
    rw [addEdge_nodes]
    exact h0
  | removeEdgeOp i =>
    injection hr with hr
    subst hr
    exact h0
  | addConnectionOp a b c d =>
    simp only [applyOp] at hr
    unfold AIModel.addConnection at hr
    cases hfa : m.findNodeLast a with
    | none =>
      rw [hfa] at hr
      cases hfb : m.findNodeLast b <;> rw [hfb] at hr <;>
        · injection hr with hr; subst hr; exact h0
    | some fn =>
      rw [hfa] at hr
      cases hfb : m.findNodeLast b with
      | none =>
        rw [hfb] at hr
        injection hr with hr; subst hr; exact h0
      | some tn =>
        rw [hfb] at hr
        dsimp only at hr
        by_cases h1 : (fn.outputPorts.length : Int) ≤ c
        · rw [if_pos h1] at hr
          injection hr with hr; subst hr; exact h0
        · rw [if_neg h1] at hr
          by_cases h2 : (tn.inputPorts.length : Int) ≤ d
          · rw [if_pos h2] at hr
            injection hr with hr; subst hr; exact h0
          · rw [if_neg h2] at hr
            cases hg1 : listGetI fn.outputPorts c with
            | none => rw [hg1] at hr; cases hr
            | some fp =>
              cases hg2 : listGetI tn.inputPorts d with
              | none => rw [hg1, hg2] at hr; cases hr
              | some tp =>
                rw [hg1, hg2] at hr
                dsimp only at hr
                injection hr with hr
                subst hr
                show ((AIModel.addEdge _ _).1.nodes.map AINode.id).Nodup
                rw [addEdge_nodes]
                exact h0

/-- C9 (amended): node-id uniqueness is preserved by every sequence of
`AddNode` / `UpdateNode` / `RemoveNode` / `AddEdge` / `RemoveEdge` /
`AddConnection` operations provided each `AddNode` supplies an id not
already in the store; `AddNode` itself performs no duplicate check, so
that proviso cannot be dropped. -/
theorem C9_unique_ids_amended (m : AIModel) (ops : List StoreOp)
    (h0 : (nodeIds m).Nodup) (hf : freshRun m ops = true) :
    ∀ m2, runOps m ops = some m2 → (nodeIds m2).Nodup := by
  induction ops generalizing m with
  | nil =>
    intro m2 h
    injection h with h
    subst h
    exact h0
  | cons op rest ih =>
    intro m2 h
    unfold runOps at h
    unfold freshRun at hf
    cases hap : applyOp m op with
    | none =>
      rw [hap] at h
      cases h
    | some r =>
      rw [hap] at h hf
      dsimp only at h hf
      rw [Bool.and_eq_true] at hf
      exact ih r.1 (applyOp_nodeIds_nodup m op h0 hf.1 r hap) hf.2 m2 h

/-- Witness for the amended C9: two fresh adds followed by a node
removal keep node ids duplicate-free. -/
theorem C9_unique_ids_amended_witness :
    (nodeIds (((initialModel.addNode nC9).1.addNode n2C9).1.removeNode 1).1).Nodup := by
  have h := C9_unique_ids_amended initialModel
    [StoreOp.addNodeOp nC9, StoreOp.addNodeOp n2C9, StoreOp.removeNodeOp 1]
    (by decide) (by decide)
  exact h _ rfl

/-! ### NodeEditor (Interaction Store), from `NodeEditor.cpp` / `NodeEditor.h` -/

structure UINode where
  id : Int
  name : String
  inputs : List Int
  outputs : List Int
  positionX : ℚ
  positionY : ℚ
  selected : Bool
  boundAINodeId : Int
deriving DecidableEq, Repr

structure Link where
  id : Int
  start_node : Int
  end_node : Int
  start_attr : Int
  end_attr : Int
deriving DecidableEq, Repr

/-- `DeferredNodeOp`: the source uses one struct with an ADD/REMOVE tag
whose unused fields are left unset; only the fields the tag uses are
ever read or compared, so an inductive with per-tag fields is exact. -/
inductive DeferredNodeOp where
  | addOp (name : String) (posX posY : ℚ) (boundAINodeId : Int)
  | removeOp (nodeId : Int)
deriving DecidableEq, Repr

structure PendingConnection where
  fromAiNodeId : Int
  toAiNodeId : Int
  fromOutput : Int
  toInput : Int
deriving DecidableEq, Repr

/-- The `IdMap`-backed editor state plus its deferral queues.
`callbackInstalled` embeds whether `onNodeChange_` currently holds the
sync manager's callback (`SetNodeChangeCallback(nullptr)` clears it). -/
structure NodeEditor where
  nodes : List UINode
  links : List Link
  currentId : Int
  pendingOps : List DeferredNodeOp
  pendingConnections : List PendingConnection
  callbackInstalled : Bool
deriving DecidableEq, Repr

def initialEditor : NodeEditor :=
  { nodes := [], links := [], currentId := 0, pendingOps := [],
    pendingConnections := [], callbackInstalled := false }

/-- `IdMap::insert`: sorted insertion by id; an already-present id is a
no-op (the source returns `inserted = false`, which callers ignore). -/
def idmapInsert {α : Type} (key : α → Int) : List α → Int → α → List α
  | [], _, x => [x]
  | y :: rest, i, x =>
    if i < key y then x :: y :: rest
    else if i = key y then y :: rest
    else y :: idmapInsert key rest i x

/-- `NodeEditor::AddNode`: queues a deferred ADD unless an identical ADD
request is already pending this frame. -/
def NodeEditor.addNodeQueue (e : NodeEditor) (name : String) (posX posY : ℚ)
    (boundAINodeId : Int) : NodeEditor :=
  if e.pendingOps.any (fun op => op = DeferredNodeOp.addOp name posX posY boundAINodeId) then e
  else { e with pendingOps := e.pendingOps ++ [DeferredNodeOp.addOp name posX posY boundAINodeId] }

/-- `NodeEditor::RemoveNode`: queues a deferred REMOVE unless one for the
same node id is already pending. -/
def NodeEditor.removeNodeQueue (e : NodeEditor) (nodeId : Int) : NodeEditor :=
  if e.pendingOps.any (fun op => op = DeferredNodeOp.removeOp nodeId) then e
  else { e with pendingOps := e.pendingOps ++ [DeferredNodeOp.removeOp nodeId] }

/-- `NodeEditor::AddLink`: immediate insertion with a fresh id from the
shared counter. -/
def NodeEditor.addLink (e : NodeEditor) (startNode endNode startAttr endAttr : Int) :
    NodeEditor :=
  let i := e.currentId
  let link : Link := { id := i, start_node := startNode, end_node := endNode,
                       start_attr := startAttr, end_attr := endAttr }
  { e with currentId := e.currentId + 1, links := idmapInsert Link.id e.links i link }

/-- `NodeEditor::RemoveLink` (`IdMap::erase` removes the sole entry with
the id, which equals filtering it out). -/
def NodeEditor.removeLink (e : NodeEditor) (linkId : Int) : NodeEditor :=
  { e with links := e.links.filter (fun l => l.id != linkId) }

/-- `NodeEditor::QueueConnectionForSync`. -/
def NodeEditor.queueConnectionForSync (e : NodeEditor) (fromAiNodeId toAiNodeId
    fromOutput toInput : Int) : NodeEditor :=
  { e with pendingConnections := e.pendingConnections ++
      [{ fromAiNodeId := fromAiNodeId, toAiNodeId := toAiNodeId,
         fromOutput := fromOutput, toInput := toInput }] }

/-- One deferred operation of `NodeEditor::ProcessDeferredOps`: ADD
allocates three consecutive ids (node, its input attribute, its output
attribute) from the shared counter; REMOVE erases incident links first,
then the node. -/
def applyDeferredOp (e : NodeEditor) : DeferredNodeOp → NodeEditor
  | .addOp name posX posY bound =>
    let i := e.currentId
    let node : UINode :=
      { id := i, name := name, inputs := [i + 1], outputs := [i + 2],
        positionX := posX, positionY := posY, selected := false, boundAINodeId := bound }
    { e with currentId := i + 3, nodes := idmapInsert UINode.id e.nodes i node }
  | .removeOp nodeId =>
    { e with
      links := e.links.filter (fun l => !(l.start_node == nodeId || l.end_node == nodeId)),
      nodes := e.nodes.filter (fun n => n.id != nodeId) }

/-- The `std::map<int,int> aiToUiNodeMap` built after the op replay:
iterating nodes in id order and overwriting, so a lookup returns the id
of the last bound node carrying the external id. -/
def aiToUi (nodes : List UINode) (aiId : Int) : Option Int :=
  (nodes.reverse.find? (fun n => n.boundAINodeId != -1 && n.boundAINodeId == aiId)).map
    UINode.id

/-- The node-pointer scan in the pending-connection replay: assigns on
every match without a break, so the last match wins. -/
def findUINodeLast (nodes : List UINode) (i : Int) : Option UINode :=
  nodes.reverse.find? (fun n => n.id == i)

/-- Replay of one queued cross-store link request: both external ids
must resolve through the snapshot map, both nodes must exist and have a
first output / input attribute; otherwise the request is skipped. -/
def resolveConn (snapshot : List UINode) (e : NodeEditor) (conn : PendingConnection) :
    NodeEditor :=
  match aiToUi snapshot conn.fromAiNodeId with
  | none => e
  | some fromUi =>
    match aiToUi snapshot conn.toAiNodeId with
    | none => e
    | some toUi =>
      match findUINodeLast snapshot fromUi with
      | none => e
      | some fromN =>
        match findUINodeLast snapshot toUi with
        | none => e
        | some toN =>
          match fromN.outputs with
          | [] => e
          | sa :: _ =>
            match toN.inputs with
            | [] => e
            | ea :: _ => e.addLink fromUi toUi sa ea

/-- `NodeEditor::ProcessDeferredOps` on an already-latched op list:
early-returns (keeping even a nonempty pending-connection list) when no
ops are queued; otherwise replays ops, then pending connections against
the post-replay node snapshot, clears the connection queue and reaches
the `onNodeChange_` call site exactly once. -/
def processDeferredOps (ops : List DeferredNodeOp) (e : NodeEditor) : NodeEditor × Nat :=
  if ops.isEmpty then (e, 0)
  else
    let e1 := ops.foldl applyDeferredOp e
    let e2 := e1.pendingConnections.foldl (resolveConn e1.nodes) e1
    ({ e2 with pendingConnections := [] }, 1)

/-- The deferral boundary at the top of `NodeEditor::Render`:
`deferredOps_ = pendingOps_; pendingOps_.clear(); ProcessDeferredOps();`.
The rest of `Render` is presentation/input handling. -/
def NodeEditor.renderPass (e : NodeEditor) : NodeEditor × Nat :=
  processDeferredOps e.pendingOps { e with pendingOps := [] }

/-! ### C8: two-phase mutation protocol of the editor -/

/-- No link dangles: both endpoints of every link are present nodes. -/
def LinksWF (nodes : List UINode) (links : List Link) : Prop :=
  ∀ l ∈ links, (∃ n ∈ nodes, n.id = l.start_node) ∧ (∃ n ∈ nodes, n.id = l.end_node)

theorem idmapInsert_mem_of_mem {α : Type} (key : α → Int) (l : List α) (i : Int) (x y : α)
    (h : y ∈ l) : y ∈ idmapInsert key l i x := by
  induction l with
  | nil => cases h
  | cons z rest ih =>
    unfold idmapInsert
    by_cases h1 : i < key z
    · rw [if_pos h1]
      exact List.mem_cons_of_mem x h
    · rw [if_neg h1]
      by_cases h2 : i = key z
      · rw [if_pos h2]
        exact h
      · rw [if_neg h2]
        rcases List.mem_cons.mp h with h3 | h3
        · exact h3 ▸ List.mem_cons_self z _
        · exact List.mem_cons_of_mem z (ih h3)

theorem idmapInsert_mem {α : Type} (key : α → Int) (l : List α) (i : Int) (x y : α)
    (h : y ∈ idmapInsert key l i x) : y = x ∨ y ∈ l := by
  induction l with
  | nil =>
    unfold idmapInsert at h
    simpa using List.mem_singleton.mp h
  | cons z rest ih =>
    unfold idmapInsert at h
    by_cases h1 : i < key z
    · rw [if_pos h1] at h
      rcases List.mem_cons.mp h with h3 | h3
      · exact Or.inl h3
      · exact Or.inr h3
    · rw [if_neg h1] at h
      by_cases h2 : i = key z
      · rw [if_pos h2] at h
        exact Or.inr h
      · rw [if_neg h2] at h
        rcases List.mem_cons.mp h with h3 | h3
        · exact Or.inr (h3 ▸ List.mem_cons_self z rest)
        · rcases ih h3 with h4 | h4
          · exact Or.inl h4
          · exact Or.inr (List.mem_cons_of_mem z h4)

theorem applyDeferredOp_nodes_mem (e : NodeEditor) (op : DeferredNodeOp) (n : UINode)
    (h : n ∈ e.nodes) (hop : ∀ i, op = DeferredNodeOp.removeOp i → n.id ≠ i) :
    n ∈ (applyDeferredOp e op).nodes := by
  cases op with
  | addOp nm px py b => exact idmapInsert_mem_of_mem _ _ _ _ _ h
  | removeOp r =>
    simp only [applyDeferredOp]
    exact List.mem_filter.mpr ⟨h, by simpa using hop r rfl⟩

theorem applyDeferredOp_wf (e : NodeEditor) (op : DeferredNodeOp)
    (h : LinksWF e.nodes e.links) :
    LinksWF (applyDeferredOp e op).nodes (applyDeferredOp e op).links := by
  cases op with
  | addOp nm px py b =>
    intro l hl
    obtain ⟨⟨n1, hn1, he1⟩, n2, hn2, he2⟩ := h l hl
    exact ⟨⟨n1, idmapInsert_mem_of_mem _ _ _ _ _ hn1, he1⟩,
           ⟨n2, idmapInsert_mem_of_mem _ _ _ _ _ hn2, he2⟩⟩
  | removeOp r =>
    intro l hl
    simp only [applyDeferredOp] at hl
    obtain ⟨hl0, hcond⟩ := List.mem_filter.mp hl
    simp only [Bool.not_eq_true', Bool.or_eq_false_iff, beq_eq_false_iff_ne, ne_eq] at hcond
    obtain ⟨⟨n1, hn1, he1⟩, n2, hn2, he2⟩ := h l hl0
    refine ⟨⟨n1, ?_, he1⟩, n2, ?_, he2⟩ <;> simp only [applyDeferredOp]
    · exact List.mem_filter.mpr ⟨hn1, by simp [he1, hcond.1]⟩
    · exact List.mem_filter.mpr ⟨hn2, by simp [he2, hcond.2]⟩

theorem foldOps_wf (ops : List DeferredNodeOp) : ∀ (e : NodeEditor),
    LinksWF e.nodes e.links →
    LinksWF (ops.foldl applyDeferredOp e).nodes (ops.foldl applyDeferredOp e).links := by
  induction ops with
  | nil => intro e h; exact h
  | cons op rest ih =>
    intro e h
    exact ih (applyDeferredOp e op) (applyDeferredOp_wf e op h)

theorem aiToUi_mem (snap : List UINode) (aiId ui : Int)
    (h : aiToUi snap aiId = some ui) : ∃ n ∈ snap, n.id = ui := by
  unfold aiToUi at h
  obtain ⟨n, hfind, hid⟩ := Option.map_eq_some'.mp h
  exact ⟨n, List.mem_reverse.mp (List.mem_of_find?_eq_some hfind), hid⟩

theorem addLink_nodes (e : NodeEditor) (s t sa ea : Int) :
    (e.addLink s t sa ea).nodes = e.nodes := rfl

theorem resolveConn_nodes (snap : List UINode) (e : NodeEditor) (conn : PendingConnection) :
    (resolveConn snap e conn).nodes = e.nodes := by
  unfold resolveConn
  cases aiToUi snap conn.fromAiNodeId with
  | none => rfl
  | some fromUi =>
    dsimp only
    cases aiToUi snap conn.toAiNodeId with
    | none => rfl
    | some toUi =>
      dsimp only
      cases findUINodeLast snap fromUi with
      | none => rfl
      | some fromN =>
        dsimp only
        cases findUINodeLast snap toUi with
        | none => rfl
        | some toN =>
          dsimp only
          cases fromN.outputs with
          | nil => rfl
          | cons sa rest =>
            dsimp only
            cases toN.inputs with
            | nil => rfl
            | cons ea rest2 => rfl

theorem resolveConn_wf (snap : List UINode) (e : NodeEditor) (conn : PendingConnection)
    (hsnap : e.nodes = snap) (h : LinksWF e.nodes e.links) :
    LinksWF (resolveConn snap e conn).nodes (resolveConn snap e conn).links := by
  rw [resolveConn_nodes]
  unfold resolveConn
  cases hf : aiToUi snap conn.fromAiNodeId with
  | none => exact h
  | some fromUi =>
    dsimp only
    cases ht : aiToUi snap conn.toAiNodeId with
    | none => exact h
    | some toUi =>
      dsimp only
      cases findUINodeLast snap fromUi with
      | none => exact h
      | some fromN =>
        dsimp only
        cases findUINodeLast snap toUi with
        | none => exact h
        | some toN =>
          dsimp only
          cases fromN.outputs with
          | nil => exact h
          | cons sa rest =>
            dsimp only
            cases toN.inputs with
            | nil => exact h
            | cons ea rest2 =>
              intro l hl
              rcases idmapInsert_mem _ _ _ _ _ hl with h1 | h1
              · subst h1
                obtain ⟨n1, hn1, he1⟩ := aiToUi_mem snap _ _ hf
                obtain ⟨n2, hn2, he2⟩ := aiToUi_mem snap _ _ ht
                exact ⟨⟨n1, hsnap ▸ hn1, he1⟩, n2, hsnap ▸ hn2, he2⟩
              · exact h l h1

theorem connFold_wf (conns : List PendingConnection) (snap : List UINode) :
    ∀ (e : NodeEditor), e.nodes = snap → LinksWF e.nodes e.links →
    LinksWF (conns.foldl (resolveConn snap) e).nodes (conns.foldl (resolveConn snap) e).links := by
  induction conns with
  | nil => intro e _ h; exact h
  | cons conn rest ih =>
    intro e hsnap h
    exact ih (resolveConn snap e conn)
      ((resolveConn_nodes snap e conn).trans hsnap)
      (resolveConn_wf snap e conn hsnap h)

/-- C8 (amended): `NodeEditor::AddNode` / `RemoveNode` only queue
requests (node and link collections untouched); the next `Render` pass
materializes them, a queued Remove deleting every incident link first
(so no link ever dangles); and the `onNodeChange_` call site is reached
at most once per pass — exactly when the latched deferred-operation
list is nonempty, even if replaying it changes nothing. -/
theorem C8_two_phase_amended (e : NodeEditor) (nm : String) (px py : ℚ) (b i : Int)
    (hwf : LinksWF e.nodes e.links) :
    ((e.addNodeQueue nm px py b).nodes = e.nodes
      ∧ (e.addNodeQueue nm px py b).links = e.links)
    ∧ ((e.removeNodeQueue i).nodes = e.nodes ∧ (e.removeNodeQueue i).links = e.links)
    ∧ (e.renderPass.2 = if e.pendingOps.isEmpty then 0 else 1)
    ∧ LinksWF e.renderPass.1.nodes e.renderPass.1.links := by
  refine ⟨⟨?_, ?_⟩, ⟨?_, ?_⟩, ?_, ?_⟩
  · unfold NodeEditor.addNodeQueue; split <;> rfl
  · unfold NodeEditor.addNodeQueue; split <;> rfl
  · unfold NodeEditor.removeNodeQueue; split <;> rfl
  · unfold NodeEditor.removeNodeQueue; split <;> rfl
  · unfold NodeEditor.renderPass processDeferredOps
    split <;> rfl
  · unfold NodeEditor.renderPass processDeferredOps
    by_cases hops : e.pendingOps.isEmpty
    · rw [if_pos hops]
      exact hwf
    · rw [if_neg hops]
      intro l hl
      have hbase : LinksWF ({ e with pendingOps := [] } : NodeEditor).nodes
          ({ e with pendingOps := [] } : NodeEditor).links := hwf
      have h1 := foldOps_wf e.pendingOps { e with pendingOps := [] } hbase
      have h2 := connFold_wf
        (e.pendingOps.foldl applyDeferredOp { e with pendingOps := [] }).pendingConnections
        (e.pendingOps.foldl applyDeferredOp { e with pendingOps := [] }).nodes
        (e.pendingOps.foldl applyDeferredOp { e with pendingOps := [] }) rfl h1
      exact h2 l hl

/-- C8 counterexample: on an empty editor, queuing `RemoveNode(5)` and
running the next pass changes neither nodes nor links, yet the
node-change notification call site is still reached once — refuting
"only if anything changed". -/
theorem C8_notification_counterexample :
    (initialEditor.removeNodeQueue 5).renderPass.1.nodes = initialEditor.nodes
      ∧ (initialEditor.removeNodeQueue 5).renderPass.1.links = initialEditor.links
      ∧ (initialEditor.removeNodeQueue 5).renderPass.2 = 1 := by
  decide

/-- The two-node, one-link editor used as a concrete interaction state
(ids as the shared counter would allocate them: node 0 with attributes
1 and 2, node 3 with attributes 4 and 5, link 6). -/
def uiA : UINode :=
  { id := 0, name := "A", inputs := [1], outputs := [2], positionX := 0, positionY := 0,
    selected := false, boundAINodeId := -1 }

def uiB : UINode :=
  { id := 3, name := "B", inputs := [4], outputs := [5], positionX := 0, positionY := 0,
    selected := false, boundAINodeId := -1 }

def linkAB : Link :=
  { id := 6, start_node := 0, end_node := 3, start_attr := 2, end_attr := 4 }

def eTwo : NodeEditor :=
  { nodes := [uiA, uiB], links := [linkAB], currentId := 7, pendingOps := [],
    pendingConnections := [], callbackInstalled := true }

/-- Witness for C8 on the concrete editor `eTwo`. -/
theorem C8_two_phase_amended_witness :
    (eTwo.addNodeQueue "C" 0 0 (-1)).nodes = eTwo.nodes
      ∧ eTwo.renderPass.2 = if eTwo.pendingOps.isEmpty then 0 else 1 := by
  have h := C8_two_phase_amended eTwo "C" 0 0 (-1) 9 (by unfold LinksWF; decide)
  exact ⟨h.1.1, h.2.2.1⟩

/-! ### C10: the shared strictly increasing id counter of the editor -/

/-- All ids a node occupies: its own id, then its input and output
attribute ids. -/
def nodeIdsOf (n : UINode) : List Int := n.id :: (n.inputs ++ n.outputs)

/-- Every id the editor currently holds, across the three kinds. -/
def editorAllIds (e : NodeEditor) : List Int :=
  e.nodes.flatMap nodeIdsOf ++ e.links.map Link.id

/-- The allocation invariant: all held ids are pairwise distinct and
below the shared counter. -/
def IdInv (e : NodeEditor) : Prop :=
  (editorAllIds e).Nodup ∧ ∀ i ∈ editorAllIds e, i < e.currentId

theorem sublist_flatMap {α β : Type} (f : α → List β) {l1 l2 : List α}
    (h : List.Sublist l1 l2) : List.Sublist (l1.flatMap f) (l2.flatMap f) := by
  induction h with
  | slnil => simp
  | cons a h ih =>
    rw [List.flatMap_cons]
    exact ih.trans (List.sublist_append_right (f a) _)
  | cons₂ a h ih =>
    rw [List.flatMap_cons, List.flatMap_cons]
    exact ih.append_left (f a)

theorem mem_flatMap_sublist {α β : Type} (f : α → List β) (x : α) (l : List α)
    (h : x ∈ l) : List.Sublist (f x) (l.flatMap f) := by
  induction l with
  | nil => cases h
  | cons a rest ih =>
    rw [List.flatMap_cons]
    rcases List.mem_cons.mp h with h1 | h1
    · subst h1
      exact List.sublist_append_left _ _
    · exact (ih h1).trans (List.sublist_append_right (f a) _)

theorem idmapInsert_perm_fresh {α : Type} (key : α → Int) (l : List α) (i : Int) (x : α)
    (hfresh : ∀ y ∈ l, key y ≠ i) : List.Perm (idmapInsert key l i x) (x :: l) := by
  induction l with
  | nil => exact List.Perm.refl _
  | cons z rest ih =>
    unfold idmapInsert
    by_cases h1 : i < key z
    · rw [if_pos h1]
    · rw [if_neg h1]
      rw [if_neg (fun h => (hfresh z (List.mem_cons_self z rest)) h.symm)]
      have ih2 := ih (fun y hy => hfresh y (List.mem_cons_of_mem z hy))
      exact (ih2.cons z).trans (List.Perm.swap x z rest)

theorem nodup_insert_mid (l1 l2 : List Int) (c : Int)
    (h : (l1 ++ l2).Nodup) (hlt : ∀ i ∈ l1 ++ l2, i < c) :
    (l1 ++ c :: l2).Nodup := by
  rw [List.nodup_middle, List.nodup_cons]
  exact ⟨fun hmem => absurd (hlt c hmem) (lt_irrefl c), h⟩

/-- `NodeEditor::AddLink` preserves the allocation invariant. -/
theorem addLink_IdInv (e : NodeEditor) (s t sa ea : Int) (h : IdInv e) :
    IdInv (e.addLink s t sa ea) := by
  obtain ⟨hnd, hlt⟩ := h
  have hfresh : ∀ y ∈ e.links, Link.id y ≠ e.currentId := by
    intro y hy
    have hmem : y.id ∈ editorAllIds e :=
      List.mem_append_right _ (List.mem_map_of_mem Link.id hy)
    exact ne_of_lt (hlt _ hmem)
  have hperm := idmapInsert_perm_fresh Link.id e.links e.currentId
    { id := e.currentId, start_node := s, end_node := t, start_attr := sa, end_attr := ea }
    hfresh
  have hids : List.Perm (editorAllIds (e.addLink s t sa ea))
      (e.nodes.flatMap nodeIdsOf ++ e.currentId :: e.links.map Link.id) := by
    unfold editorAllIds NodeEditor.addLink
    exact List.Perm.append_left _ (hperm.map Link.id)
  constructor
  · rw [hids.nodup_iff]
    exact nodup_insert_mid _ _ _ hnd hlt
  · intro i hi
    have hi2 := hperm.map Link.id
    have : i ∈ e.nodes.flatMap nodeIdsOf ++ e.currentId :: e.links.map Link.id :=
      hids.mem_iff.mp hi
    rcases List.mem_append.mp this with h1 | h1
    · have : i < e.currentId := hlt i (List.mem_append_left _ h1)
      show i < e.currentId + 1
      omega
    · rcases List.mem_cons.mp h1 with h2 | h2
      · subst h2
        show (e.currentId : Int) < e.currentId + 1
        omega
      · have : i < e.currentId := hlt i (List.mem_append_right _ h2)
        show i < e.currentId + 1
        omega

/-- The node a deferred ADD materializes at counter value `c`. -/
def newUINode (c : Int) (nm : String) (px py : ℚ) (b : Int) : UINode :=
  { id := c, name := nm, inputs := [c + 1], outputs := [c + 2],
    positionX := px, positionY := py, selected := false, boundAINodeId := b }

theorem applyDeferredOp_add_eq (e : NodeEditor) (nm : String) (px py : ℚ) (b : Int) :
    applyDeferredOp e (DeferredNodeOp.addOp nm px py b) =
      { e with currentId := e.currentId + 3,
               nodes := idmapInsert UINode.id e.nodes e.currentId
                 (newUINode e.currentId nm px py b) } := rfl

/-- One deferred op preserves the allocation invariant; the counter
never decreases. -/
theorem applyDeferredOp_IdInv (e : NodeEditor) (op : DeferredNodeOp) (h : IdInv e) :
    IdInv (applyDeferredOp e op) ∧ e.currentId ≤ (applyDeferredOp e op).currentId := by
  obtain ⟨hnd, hlt⟩ := h
  cases op with
  | addOp nm px py b =>
    have hfresh : ∀ y ∈ e.nodes, UINode.id y ≠ e.currentId := by
      intro y hy
      have hmem : y.id ∈ editorAllIds e :=
        List.mem_append_left _
          (List.mem_flatMap.mpr ⟨y, hy, List.mem_cons_self _ _⟩)
      exact ne_of_lt (hlt _ hmem)
    have hperm := idmapInsert_perm_fresh UINode.id e.nodes e.currentId
      (newUINode e.currentId nm px py b) hfresh
    have hids : List.Perm
        (editorAllIds (applyDeferredOp e (DeferredNodeOp.addOp nm px py b)))
        ([e.currentId, e.currentId + 1, e.currentId + 2] ++ editorAllIds e) := by
      rw [applyDeferredOp_add_eq]
      unfold editorAllIds
      dsimp only
      refine (List.Perm.append_right _ (hperm.flatMap_right nodeIdsOf)).trans ?_
      rw [List.flatMap_cons, List.append_assoc]
      exact List.Perm.refl _
    have hcur : (applyDeferredOp e (DeferredNodeOp.addOp nm px py b)).currentId
        = e.currentId + 3 := by
      rw [applyDeferredOp_add_eq]
    refine ⟨⟨?_, ?_⟩, ?_⟩
    · rw [hids.nodup_iff, List.nodup_append]
      have h3 : ([e.currentId, e.currentId + 1, e.currentId + 2] : List Int).Nodup := by
        refine List.nodup_cons.mpr ⟨?_, List.nodup_cons.mpr ⟨?_, List.nodup_singleton _⟩⟩
        · intro hmem
          rcases List.mem_cons.mp hmem with h4 | h4
          · omega
          · have h5 := List.mem_singleton.mp h4
            omega
        · intro hmem
          have h4 := List.mem_singleton.mp hmem
          omega
      refine ⟨h3, hnd, ?_⟩
      intro a ha hb
      have hlt2 := hlt a hb
      rcases List.mem_cons.mp ha with h4 | h4
      · omega
      rcases List.mem_cons.mp h4 with h5 | h5
      · omega
      have h6 := List.mem_singleton.mp h5
      omega
    · intro i hi
      rw [hcur]
      have hm := hids.mem_iff.mp hi
      rcases List.mem_append.mp hm with h1 | h1
      · rcases List.mem_cons.mp h1 with h2 | h2
        · omega
        rcases List.mem_cons.mp h2 with h3 | h3
        · omega
        have h4 := List.mem_singleton.mp h3
        omega
      · have := hlt i h1
        omega
    · rw [hcur]
      omega
  | removeOp r =>
    have hsub : List.Sublist (editorAllIds (applyDeferredOp e (DeferredNodeOp.removeOp r)))
        (editorAllIds e) := by
      unfold editorAllIds applyDeferredOp
      exact (sublist_flatMap nodeIdsOf (List.filter_sublist _)).append
        ((List.filter_sublist _).map Link.id)
    exact ⟨⟨hnd.sublist hsub, fun i hi => hlt i (hsub.subset hi)⟩, le_refl _⟩

theorem resolveConn_IdInv (snap : List UINode) (e : NodeEditor) (conn : PendingConnection)
    (h : IdInv e) : IdInv (resolveConn snap e conn)
      ∧ e.currentId ≤ (resolveConn snap e conn).currentId := by
  unfold resolveConn
  cases aiToUi snap conn.fromAiNodeId with
  | none => exact ⟨h, le_refl _⟩
  | some fromUi =>
    dsimp only
    cases aiToUi snap conn.toAiNodeId with
    | none => exact ⟨h, le_refl _⟩
    | some toUi =>
      dsimp only
      cases findUINodeLast snap fromUi with
      | none => exact ⟨h, le_refl _⟩
      | some fromN =>
        dsimp only
        cases findUINodeLast snap toUi with
        | none => exact ⟨h, le_refl _⟩
        | some toN =>
          dsimp only
          cases fromN.outputs with
          | nil => exact ⟨h, le_refl _⟩
          | cons sa rest =>
            dsimp only
            cases toN.inputs with
            | nil => exact ⟨h, le_refl _⟩
            | cons ea rest2 =>
              refine ⟨addLink_IdInv e fromUi toUi sa ea h, ?_⟩
              show e.currentId ≤ e.currentId + 1
              omega

theorem foldOps_IdInv (ops : List DeferredNodeOp) : ∀ (e : NodeEditor), IdInv e →
    IdInv (ops.foldl applyDeferredOp e)
      ∧ e.currentId ≤ (ops.foldl applyDeferredOp e).currentId := by
  induction ops with
  | nil => intro e h; exact ⟨h, le_refl _⟩
  | cons op rest ih =>
    intro e h
    obtain ⟨h1, h2⟩ := applyDeferredOp_IdInv e op h
    obtain ⟨h3, h4⟩ := ih (applyDeferredOp e op) h1
    exact ⟨h3, le_trans h2 h4⟩

theorem connFold_IdInv (conns : List PendingConnection) (snap : List UINode) :
    ∀ (e : NodeEditor), IdInv e →
    IdInv (conns.foldl (resolveConn snap) e)
      ∧ e.currentId ≤ (conns.foldl (resolveConn snap) e).currentId := by
  induction conns with
  | nil => intro e h; exact ⟨h, le_refl _⟩
  | cons conn rest ih =>
    intro e h
    obtain ⟨h1, h2⟩ := resolveConn_IdInv snap e conn h
    obtain ⟨h3, h4⟩ := ih (resolveConn snap e conn) h1
    exact ⟨h3, le_trans h2 h4⟩

theorem IdInv_pending_irrelevant (e : NodeEditor) (ops : List DeferredNodeOp)
    (conns : List PendingConnection) (h : IdInv e) :
    IdInv { e with pendingOps := ops, pendingConnections := conns } := h

theorem renderPass_IdInv (e : NodeEditor) (h : IdInv e) :
    IdInv e.renderPass.1 ∧ e.currentId ≤ e.renderPass.1.currentId := by
  unfold NodeEditor.renderPass processDeferredOps
  by_cases hops : e.pendingOps.isEmpty
  · rw [if_pos hops]
    exact ⟨h, le_refl _⟩
  · rw [if_neg hops]
    have hbase : IdInv ({ e with pendingOps := [] } : NodeEditor) := h
    obtain ⟨h1, h2⟩ := foldOps_IdInv e.pendingOps { e with pendingOps := [] } hbase
    obtain ⟨h3, h4⟩ :=
      connFold_IdInv (e.pendingOps.foldl applyDeferredOp { e with pendingOps := [] }).pendingConnections
        (e.pendingOps.foldl applyDeferredOp { e with pendingOps := [] }).nodes
        (e.pendingOps.foldl applyDeferredOp { e with pendingOps := [] }) h1
    exact ⟨h3, le_trans h2 h4⟩

/-- Distinctness inside one node follows from the global invariant. -/
theorem IdInv_attrs (e : NodeEditor) (h : IdInv e) :
    ∀ n ∈ e.nodes, ∀ i ∈ n.inputs, ∀ o ∈ n.outputs, i ≠ o ∧ i ≠ n.id ∧ o ≠ n.id := by
  intro n hn i hi o ho
  have hsub : List.Sublist (nodeIdsOf n) (editorAllIds e) :=
    (mem_flatMap_sublist nodeIdsOf n e.nodes hn).trans (List.sublist_append_left _ _)
  have hnd : (nodeIdsOf n).Nodup := h.1.sublist hsub
  unfold nodeIdsOf at hnd
  rw [List.nodup_cons, List.nodup_append] at hnd
  obtain ⟨hid, hin, hout, hdisj⟩ := hnd
  refine ⟨fun hc => hdisj hi (hc ▸ ho), ?_, ?_⟩
  · intro hc
    exact hid (List.mem_append_left _ (hc ▸ hi))
  · intro hc
    exact hid (List.mem_append_right _ (hc ▸ ho))

/-- C10: node ids, attribute ids and link ids are all drawn from the one
strictly increasing `current_id_` counter, so under the allocation
invariant every held id stays distinct across the three kinds after a
direct `AddLink` and after a full render pass (which replays queued adds,
removes and cross-store link requests); per node, the input attribute,
the output attribute and the node id are pairwise different, which is
what makes attribute-to-node resolution unambiguous. -/
theorem C10_shared_counter (e : NodeEditor) (s t sa ea : Int) (h : IdInv e) :
    IdInv (e.addLink s t sa ea)
    ∧ IdInv e.renderPass.1
    ∧ e.currentId ≤ e.renderPass.1.currentId
    ∧ (∀ n ∈ e.renderPass.1.nodes, ∀ i ∈ n.inputs, ∀ o ∈ n.outputs,
        i ≠ o ∧ i ≠ n.id ∧ o ≠ n.id) := by
  obtain ⟨h1, h2⟩ := renderPass_IdInv e h
  exact ⟨addLink_IdInv e s t sa ea h, h1, h2, IdInv_attrs _ h1⟩

/-- Witness for C10 on the concrete editor `eTwo`. -/
theorem C10_shared_counter_witness :
    IdInv (eTwo.addLink 0 3 2 4) ∧ IdInv eTwo.renderPass.1 := by
  have h := C10_shared_counter eTwo 0 3 2 4
    (by unfold IdInv editorAllIds nodeIdsOf; decide)
  exact ⟨h.1, h.2.1⟩

/-! ### SyncManager (`SyncManager.cpp`)

`std::to_string` on a float and `std::stof` are C++ standard-library
collaborators; they are parameters (`fts : ℚ → String`,
`stof : String → Option ℚ`, `none` = `std::stof` throws). -/

/-- `SyncManager::SyncEditorToModel`'s link loop: each editor link is
handed to `AddConnection` with the link's *attribute ids* in the
port-index arguments; an out-of-bounds access propagates. -/
def syncLinks : List Link → AIModel → Option AIModel
  | [], m => some m
  | l :: rest, m =>
    match m.addConnection l.start_node l.end_node l.start_attr l.end_attr with
    | none => none
    | some r => syncLinks rest r.1

/-- `SyncManager::SyncEditorToModel`: suppress the model callback,
remove every current model node, re-create one portless model node per
editor node (position to parameters, bound id = editor node id), replay
links through the legacy connection path, restore the callback.  The
whole body is straight-line, so on every `some` result the model
callback has been re-installed. -/
def pushedNode (fts : ℚ → String) (n : UINode) : AINode :=
  { id := n.id, type := "Generic", name := n.name,
    parameters := [("position_x", fts n.positionX), ("position_y", fts n.positionY)],
    inputPorts := [], outputPorts := [], boundUINodeId := n.id }

/-- The push direction of the bridge, as documented above, with
`pushedNode` the portless model node built per editor node. -/
def syncEditorToModel (fts : ℚ → String) (e : NodeEditor) (m : AIModel) : Option AIModel :=
  let ids := m.nodes.map AINode.id
  let m1 := ids.foldl (fun acc i => (acc.removeNode i).1) m
  let m2 := e.nodes.foldl (fun acc n => (acc.addNode (pushedNode fts n)).1) m1
  syncLinks e.links m2

/-- The parameter-decoding loop of `SyncManager::SyncModelToEditor`:
walks the node's parameters, replacing the default position on each
`position_x` / `position_y` hit; a failed `std::stof` throws (`none`). -/
def decodePos (stof : String → Option ℚ) :
    List (String × String) → ℚ → ℚ → Option (ℚ × ℚ)
  | [], px, py => some (px, py)
  | (k, v) :: rest, px, py =>
    if k = "position_x" then
      match stof v with
      | none => none
      | some x => decodePos stof rest x py
    else if k = "position_y" then
      match stof v with
      | none => none
      | some y => decodePos stof rest px y
    else decodePos stof rest px py

/-- The node loop of `SyncManager::SyncModelToEditor`: queues one editor
ADD per model node; a decoding exception aborts the loop (and the whole
sync) with the editor state as it stands. -/
def syncAddNodes (stof : String → Option ℚ) : List AINode → NodeEditor → NodeEditor × Bool
  | [], e => (e, true)
  | n :: rest, e =>
    let defX : ℚ := 100 + ((n.id : ℚ) - 1) * 150
    let defY : ℚ := 100
    match decodePos stof n.parameters defX defY with
    | none => (e, false)
    | some r => syncAddNodes stof rest (e.addNodeQueue n.name r.1 r.2 n.id)

/-- The port-index scan of the edge loop: for every node whose id
matches the port's owner, look the port id up in the selected port list,
keeping the previous index (initially 0) when the inner scan misses. -/
def scanIdx (nodes : List AINode) (select : AINode → List Port) (ownerId pid : Int) : Nat :=
  nodes.foldl
    (fun acc n =>
      if n.id == ownerId then
        match (select n).findIdx? (fun p => p.id == pid) with
        | some i => i
        | none => acc
      else acc) 0

/-- The edge loop of `SyncManager::SyncModelToEditor`: resolve each
edge's ports, compute their indices within the owning nodes, and queue
a cross-store connection keyed by the owning model node ids. -/
def syncQueueConns (m : AIModel) (e : NodeEditor) : NodeEditor :=
  m.edges.foldl
    (fun acc edge =>
      match m.getPort edge.fromPortId, m.getPort edge.toPortId with
      | some fp, some tp =>
        acc.queueConnectionForSync fp.nodeId tp.nodeId
          (scanIdx m.nodes AINode.outputPorts fp.nodeId fp.id)
          (scanIdx m.nodes AINode.inputPorts tp.nodeId tp.id)
      | _, _ => acc) e

/-- `SyncManager::SyncModelToEditor`: suppress the editor callback,
queue removal of every current editor node, queue one ADD per model
node (restoring positions via `std::stof`), queue cross-store link
requests for the model's edges, then re-install the callback.  The
restore is the last statement of the function body, so a `std::stof`
exception leaves the callback suppressed (`callbackInstalled = false`)
— the `Bool` result is `false` exactly when the body threw. -/
def syncModelToEditor (stof : String → Option ℚ) (e : NodeEditor) (m : AIModel) :
    NodeEditor × Bool :=
  let e0 := { e with callbackInstalled := false }
  let e1 := e0.nodes.foldl (fun acc n => acc.removeNodeQueue n.id) e0
  let r := syncAddNodes stof m.nodes e1
  if r.2 then
    let e3 := syncQueueConns m r.1
    ({ e3 with callbackInstalled := true }, true)
  else (r.1, false)

/-- A model whose single node carries a malformed position parameter. -/
def mBadParam : AIModel :=
  { nodes := [{ id := 1, type := "Generic", name := "N",
                parameters := [("position_x", "abc")], inputPorts := [],
                outputPorts := [], boundUINodeId := -1 }],
    edges := [], allPorts := [], nextPortId := 1000, nextEdgeId := 2000 }

/-- C6: pulling `mBadParam` into the editor hits a `std::stof` failure
("abc" parses to nothing), the sync body aborts, and the editor's
node-change callback — suppressed at entry — is *not* re-installed:
suppression outlives the sync operation, contrary to the claim. -/
theorem C6_suppression_not_restored :
    (syncModelToEditor (fun _ => none) eTwo mBadParam).2 = false
      ∧ (syncModelToEditor (fun _ => none) eTwo mBadParam).1.callbackInstalled = false
      ∧ eTwo.callbackInstalled = true := by
  decide

/-! ### C2: the push-then-pull round trip -/

/-- The spec's push-then-pull experiment: push the editor into the
model, pull back, and let the next render pass materialize the queued
operations.  `none` = a sync body failed (exception / undefined
behavior). -/
def roundTrip (fts : ℚ → String) (stof : String → Option ℚ) (e : NodeEditor)
    (m : AIModel) : Option NodeEditor :=
  match syncEditorToModel fts e m with
  | none => none
  | some m2 =>
    let r := syncModelToEditor stof e m2
    if r.2 then some r.1.renderPass.1 else none

/-- C2 counterexample: the two-node editor with one link round-trips to
an editor with the right node count but *zero* links — the push hands
attribute ids (here 2 and 4) to `AddConnection` as port indices, whose
bound checks reject them, so every link is dropped. -/
theorem C2_roundtrip_counterexample :
    eTwo.links.length = 1
      ∧ (roundTrip (fun _ => "0") (fun _ => some 0) eTwo initialModel).map
          (fun e2 => (e2.nodes.length, e2.links.length)) = some (2, 0) := by
  decide

theorem removeNode_allPorts (m : AIModel) (i : Int) :
    (m.removeNode i).1.allPorts = m.allPorts.filter (fun p => p.nodeId != i) := rfl

theorem removeNode_nodes (m : AIModel) (i : Int) :
    (m.removeNode i).1.nodes = m.nodes.filter (fun n => n.id != i) := rfl

theorem removeNode_edges (m : AIModel) (i : Int) :
    (m.removeNode i).1.edges = m.edges.filter
      (fun e => !(m.portOwnedBy e.fromPortId i || m.portOwnedBy e.toPortId i)) := rfl

theorem getPort_eq_of_mem (m : AIModel) (hpid : (m.allPorts.map Port.id).Nodup)
    (p : Port) (hp : p ∈ m.allPorts) : m.getPort p.id = some p := by
  unfold AIModel.getPort
  cases hf : m.allPorts.reverse.find? (fun q => q.id == p.id) with
  | none =>
    have := List.find?_eq_none.mp hf p (List.mem_reverse.mpr hp)
    simp at this
  | some q =>
    have hq1 := List.find?_some hf
    have hq2 := List.mem_reverse.mp (List.mem_of_find?_eq_some hf)
    have hqp : q = p := List.inj_on_of_nodup_map hpid hq2 hp (by simpa using hq1)
    rw [hqp]

theorem getPort_eq_none (m : AIModel) (pid : Int)
    (h : ∀ p ∈ m.allPorts, p.id ≠ pid) : m.getPort pid = none := by
  apply List.find?_eq_none.mpr
  intro q hq
  simpa using h q (List.mem_reverse.mp hq)

theorem getPort_removeNode (m : AIModel) (i pid : Int)
    (hpid : (m.allPorts.map Port.id).Nodup) :
    (m.removeNode i).1.getPort pid
      = match m.getPort pid with
        | some p => if p.nodeId = i then none else some p
        | none => none := by
  cases hg : m.getPort pid with
  | none =>
    dsimp only
    apply getPort_eq_none
    intro p hp
    rw [removeNode_allPorts] at hp
    have hp0 : p ∈ m.allPorts := List.mem_of_mem_filter hp
    have := List.find?_eq_none.mp hg p (List.mem_reverse.mpr hp0)
    simpa using this
  | some p =>
    dsimp only
    have hp0 : p ∈ m.allPorts := getPort_mem m pid p hg
    have hpidp : p.id = pid := by
      have := List.find?_some hg
      simpa using this
    by_cases hni : p.nodeId = i
    · rw [if_pos hni]
      apply getPort_eq_none
      intro q hq
      rw [removeNode_allPorts] at hq
      obtain ⟨hq0, hqcond⟩ := List.mem_filter.mp hq
      intro hqpid
      have hqp : q = p := List.inj_on_of_nodup_map hpid hq0 hp0 (by rw [hqpid, hpidp])
      subst hqp
      simp [hni] at hqcond
    · rw [if_neg hni]
      have hpid1 : ((m.removeNode i).1.allPorts.map Port.id).Nodup := by
        rw [removeNode_allPorts]
        exact hpid.sublist ((List.filter_sublist _).map Port.id)
      have hp1 : p ∈ (m.removeNode i).1.allPorts := by
        rw [removeNode_allPorts]
        exact List.mem_filter.mpr ⟨hp0, by simpa using hni⟩
      have := getPort_eq_of_mem (m.removeNode i).1 hpid1 p hp1
      rw [hpidp] at this
      exact this

/-- Which node ids an edge's endpoints resolve to having already been
removed decides its survival of a removal sequence. -/
def edgeSurvives (m : AIModel) (R : List Int) (e : Edge) : Bool :=
  match m.getPort e.fromPortId, m.getPort e.toPortId with
  | some fp, some tp => !(R.contains fp.nodeId || R.contains tp.nodeId)
  | some fp, none => !(R.contains fp.nodeId)
  | none, some tp => !(R.contains tp.nodeId)
  | none, none => true

theorem contains_cons_eq (R : List Int) (i x : Int) :
    (i :: R).contains x = (x == i || R.contains x) := by
  by_cases h : (x == i) = true
  · simp [List.contains, List.elem, h]
  · rw [Bool.not_eq_true] at h
    simp [List.contains, List.elem, h]

theorem removeFoldModel (R : List Int) : ∀ (m : AIModel),
    (m.allPorts.map Port.id).Nodup →
    ((R.foldl (fun acc i => (acc.removeNode i).1) m).nodes
        = m.nodes.filter (fun n => !(R.contains n.id))
      ∧ (R.foldl (fun acc i => (acc.removeNode i).1) m).allPorts
        = m.allPorts.filter (fun p => !(R.contains p.nodeId))
      ∧ (R.foldl (fun acc i => (acc.removeNode i).1) m).edges
        = m.edges.filter (edgeSurvives m R)
      ∧ (R.foldl (fun acc i => (acc.removeNode i).1) m).nextPortId = m.nextPortId
      ∧ (R.foldl (fun acc i => (acc.removeNode i).1) m).nextEdgeId = m.nextEdgeId) := by
  induction R with
  | nil =>
    intro m hpid
    refine ⟨?_, ?_, ?_, rfl, rfl⟩
    · exact (List.filter_eq_self.mpr (fun n _ => rfl)).symm
    · exact (List.filter_eq_self.mpr (fun p _ => rfl)).symm
    · refine (List.filter_eq_self.mpr ?_).symm
      intro e _
      unfold edgeSurvives
      cases m.getPort e.fromPortId <;> cases m.getPort e.toPortId <;> rfl
  | cons i R ih =>
    intro m hpid
    rw [List.foldl_cons]
    have hpid1 : ((m.removeNode i).1.allPorts.map Port.id).Nodup := by
      rw [removeNode_allPorts]
      exact hpid.sublist ((List.filter_sublist _).map Port.id)
    obtain ⟨h1, h2, h3, h4, h5⟩ := ih (m.removeNode i).1 hpid1
    refine ⟨?_, ?_, ?_, ?_, ?_⟩
    · rw [h1, removeNode_nodes, List.filter_filter]
      apply List.filter_congr
      intro n _
      rw [contains_cons_eq]
      by_cases h : (n.id == i) = true
      · simp [h, bne]
      · rw [Bool.not_eq_true] at h
        simp [h, bne]
    · rw [h2, removeNode_allPorts, List.filter_filter]
      apply List.filter_congr
      intro p _
      rw [contains_cons_eq]
      by_cases h : (p.nodeId == i) = true
      · simp [h, bne]
      · rw [Bool.not_eq_true] at h
        simp [h, bne]
    · rw [h3, removeNode_edges, List.filter_filter]
      apply List.filter_congr
      intro e _
      unfold AIModel.portOwnedBy edgeSurvives
      rw [getPort_removeNode m i e.fromPortId hpid, getPort_removeNode m i e.toPortId hpid]
      cases hf : m.getPort e.fromPortId with
      | none =>
        cases ht : m.getPort e.toPortId with
        | none => rfl
        | some tp =>
          dsimp only
          rw [contains_cons_eq]
          by_cases hti : tp.nodeId = i
          · rw [if_pos hti]
            simp [hti]
          · rw [if_neg hti]
            have : (tp.nodeId == i) = false := by simpa using hti
            simp [this]
      | some fp =>
        cases ht : m.getPort e.toPortId with
        | none =>
          dsimp only
          rw [contains_cons_eq]
          by_cases hfi : fp.nodeId = i
          · rw [if_pos hfi]
            simp [hfi]
          · rw [if_neg hfi]
            have : (fp.nodeId == i) = false := by simpa using hfi
            simp [this]
        | some tp =>
          dsimp only
          rw [contains_cons_eq, contains_cons_eq]
          by_cases hfi : fp.nodeId = i
          · rw [if_pos hfi]
            by_cases hti : tp.nodeId = i
            · rw [if_pos hti]
              simp [hfi, hti]
            · rw [if_neg hti]
              simp [hfi]
          · rw [if_neg hfi]
            have hfb : (fp.nodeId == i) = false := by simpa using hfi
            by_cases hti : tp.nodeId = i
            · rw [if_pos hti]
              simp [hfb, hti]
            · rw [if_neg hti]
              have htb : (tp.nodeId == i) = false := by simpa using hti
              simp [hfb, htb]
    · exact h4
    · exact h5

/-- The model nodes the push creates for an editor node list, starting
from port counter `pc` (each node gets one synthesized input and output
port). -/
def genModelNodes (fts : ℚ → String) (pc : Int) : List UINode → List AINode
  | [] => []
  | en :: rest =>
    { id := en.id, type := "Generic", name := en.name,
      parameters := [("position_x", fts en.positionX), ("position_y", fts en.positionY)],
      inputPorts := [{ id := pc, name := "input", dataType := "any",
                       isInput := true, nodeId := en.id }],
      outputPorts := [{ id := pc + 1, name := "output", dataType := "any",
                        isInput := false, nodeId := en.id }],
      boundUINodeId := en.id } :: genModelNodes fts (pc + 2) rest

/-- The matching global port registrations. -/
def genModelPorts (pc : Int) : List UINode → List Port
  | [] => []
  | en :: rest =>
    { id := pc, name := "input", dataType := "any", isInput := true, nodeId := en.id }
    :: { id := pc + 1, name := "output", dataType := "any", isInput := false, nodeId := en.id }
    :: genModelPorts (pc + 2) rest

theorem addNode_portless (m : AIModel) (node : AINode)
    (hin : node.inputPorts = []) (hout : node.outputPorts = []) :
    m.addNode node = ({ m with
      nodes := m.nodes ++ [{ node with
        inputPorts := [{ id := m.nextPortId, name := "input", dataType := "any",
                         isInput := true, nodeId := node.id }],
        outputPorts := [{ id := m.nextPortId + 1, name := "output", dataType := "any",
                          isInput := false, nodeId := node.id }] }],
      allPorts := m.allPorts
        ++ [{ id := m.nextPortId, name := "input", dataType := "any",
              isInput := true, nodeId := node.id },
            { id := m.nextPortId + 1, name := "output", dataType := "any",
              isInput := false, nodeId := node.id }],
      nextPortId := m.nextPortId + 2 }, 1) := by
  unfold AIModel.addNode
  rw [hin, hout]
  simp
  omega

theorem pushAdds (fts : ℚ → String) (ens : List UINode) : ∀ (m : AIModel),
    ((ens.foldl (fun acc n => (acc.addNode (pushedNode fts n)).1) m).nodes
        = m.nodes ++ genModelNodes fts m.nextPortId ens
      ∧ ((ens.foldl (fun acc n => (acc.addNode (pushedNode fts n)).1) m).allPorts
        = m.allPorts ++ genModelPorts m.nextPortId ens)
      ∧ ((ens.foldl (fun acc n => (acc.addNode (pushedNode fts n)).1) m).edges
        = m.edges)) := by
  induction ens with
  | nil =>
    intro m
    exact ⟨by simp [genModelNodes], by simp [genModelPorts], rfl⟩
  | cons en rest ih =>
    intro m
    rw [List.foldl_cons]
    have hstep := addNode_portless m (pushedNode fts en) rfl rfl
    rw [hstep]
    obtain ⟨ihn, ihp, ihe⟩ := ih _
    refine ⟨?_, ?_, ?_⟩
    · rw [ihn]
      show (m.nodes ++ _) ++ genModelNodes fts (m.nextPortId + 2) rest
        = m.nodes ++ genModelNodes fts m.nextPortId (en :: rest)
      rw [List.append_assoc]
      rfl
    · rw [ihp]
      show (m.allPorts ++ _) ++ genModelPorts (m.nextPortId + 2) rest
        = m.allPorts ++ genModelPorts m.nextPortId (en :: rest)
      rw [List.append_assoc]
      rfl
    · exact ihe

theorem genModelNodes_map_id (fts : ℚ → String) (ens : List UINode) : ∀ (pc : Int),
    (genModelNodes fts pc ens).map AINode.id = ens.map UINode.id := by
  induction ens with
  | nil => intro pc; rfl
  | cons en rest ih =>
    intro pc
    unfold genModelNodes
    rw [List.map_cons, List.map_cons, ih]

theorem genModelNodes_shape (fts : ℚ → String) (ens : List UINode) : ∀ (pc : Int),
    ∀ n ∈ genModelNodes fts pc ens,
      n.outputPorts.length = 1 ∧ n.inputPorts.length = 1
      ∧ (∃ a b, n.parameters = [("position_x", fts a), ("position_y", fts b)]) := by
  induction ens with
  | nil => intro pc n hn; cases hn
  | cons en rest ih =>
    intro pc n hn
    unfold genModelNodes at hn
    rcases List.mem_cons.mp hn with h1 | h1
    · subst h1
      exact ⟨rfl, rfl, en.positionX, en.positionY, rfl⟩
    · exact ih (pc + 2) n h1

theorem findNodeLast_mem (m : AIModel) (nid : Int) (fn : AINode)
    (h : m.findNodeLast nid = some fn) : fn ∈ m.nodes :=
  List.mem_reverse.mp (List.mem_of_find?_eq_some h)

theorem syncLinks_allRejected (ls : List Link) : ∀ (m2 : AIModel),
    (∀ n ∈ m2.nodes, n.outputPorts.length = 1) →
    (∀ l ∈ ls, 1 ≤ l.start_attr) →
    syncLinks ls m2 = some m2 := by
  induction ls with
  | nil => intro m2 _ _; rfl
  | cons l rest ih =>
    intro m2 hn hl
    unfold syncLinks
    have hrej : m2.addConnection l.start_node l.end_node l.start_attr l.end_attr
        = some (m2, 0) := by
      unfold AIModel.addConnection
      cases hf : m2.findNodeLast l.start_node with
      | none =>
        cases m2.findNodeLast l.end_node <;> rfl
      | some fn =>
        cases ht : m2.findNodeLast l.end_node with
        | none => rfl
        | some tn =>
          dsimp only
          rw [if_pos]
          rw [hn fn (findNodeLast_mem m2 _ fn hf)]
          exact_mod_cast hl l (List.mem_cons_self l rest)
    rw [hrej]
    exact ih m2 hn (fun k hk => hl k (List.mem_cons_of_mem l hk))

/-- The external-id slot of a queued op, when it is an ADD. -/
def addOpBound : DeferredNodeOp → Option Int
  | .addOp _ _ _ b => some b
  | .removeOp _ => none

theorem queueRemoves_spec (ns : List UINode) : ∀ (e : NodeEditor),
    (ns.map UINode.id).Nodup →
    (∀ n ∈ ns, DeferredNodeOp.removeOp n.id ∉ e.pendingOps) →
    ns.foldl (fun acc n => acc.removeNodeQueue n.id) e
      = { e with pendingOps := e.pendingOps
            ++ ns.map (fun n => DeferredNodeOp.removeOp n.id) } := by
  induction ns with
  | nil =>
    intro e _ _
    rw [List.foldl_nil, List.map_nil, List.append_nil]
  | cons n rest ih =>
    intro e hnd hno
    rw [List.foldl_cons]
    have hq : e.removeNodeQueue n.id
        = { e with pendingOps := e.pendingOps ++ [DeferredNodeOp.removeOp n.id] } := by
      unfold NodeEditor.removeNodeQueue
      rw [if_neg]
      intro hc
      obtain ⟨op, hop, heq⟩ := List.any_eq_true.mp hc
      exact hno n (List.mem_cons_self n rest) (of_decide_eq_true heq ▸ hop)
    rw [hq]
    have hnd2 : (rest.map UINode.id).Nodup := (List.nodup_cons.mp hnd).2
    have hni : n.id ∉ rest.map UINode.id := (List.nodup_cons.mp hnd).1
    rw [ih _ hnd2 ?hno2]
    case hno2 =>
      intro k hk hmem
      rcases List.mem_append.mp hmem with h1 | h1
      · exact hno k (List.mem_cons_of_mem n hk) h1
      · have := List.mem_singleton.mp h1
        have hkid : k.id = n.id := by
          injection this
        exact hni (hkid ▸ List.mem_map_of_mem UINode.id hk)
    rw [List.append_assoc]
    rfl

theorem decodePos_gen (stof : String → Option ℚ) (fts : ℚ → String)
    (hstof : ∀ q : ℚ, ∃ x, stof (fts q) = some x) (a b dx dy : ℚ) :
    ∃ xy, decodePos stof [("position_x", fts a), ("position_y", fts b)] dx dy = some xy := by
  obtain ⟨x, hx⟩ := hstof a
  obtain ⟨y, hy⟩ := hstof b
  refine ⟨(x, y), ?_⟩
  show decodePos stof (("position_x", fts a) :: [("position_y", fts b)]) dx dy = some (x, y)
  unfold decodePos
  rw [if_pos rfl, hx]
  show decodePos stof (("position_y", fts b) :: []) x dy = some (x, y)
  unfold decodePos
  rw [if_neg (by decide), if_pos rfl, hy]
  rfl

theorem syncAddNodes_spec (stof : String → Option ℚ) (ns : List AINode) :
    ∀ (e : NodeEditor),
    (∀ n ∈ ns, ∃ xy, decodePos stof n.parameters (100 + ((n.id : ℚ) - 1) * 150) 100
        = some xy) →
    (ns.map AINode.id).Nodup →
    (∀ n ∈ ns, ∀ op ∈ e.pendingOps, addOpBound op ≠ some n.id) →
    ∃ ops, syncAddNodes stof ns e = ({ e with pendingOps := e.pendingOps ++ ops }, true)
      ∧ ops.map addOpBound = ns.map (fun n => some n.id) := by
  induction ns with
  | nil =>
    intro e _ _ _
    refine ⟨[], ?_, rfl⟩
    rw [List.append_nil]
    rfl
  | cons n rest ih =>
    intro e hdec hnd hnomatch
    obtain ⟨xy, hxy⟩ := hdec n (List.mem_cons_self n rest)
    have hq : e.addNodeQueue n.name xy.1 xy.2 n.id
        = { e with pendingOps := e.pendingOps
              ++ [DeferredNodeOp.addOp n.name xy.1 xy.2 n.id] } := by
      unfold NodeEditor.addNodeQueue
      rw [if_neg]
      intro hc
      obtain ⟨op, hop, heq⟩ := List.any_eq_true.mp hc
      have heq2 := of_decide_eq_true heq
      exact hnomatch n (List.mem_cons_self n rest) op hop (by rw [heq2]; rfl)
    have hnd2 : (rest.map AINode.id).Nodup := (List.nodup_cons.mp hnd).2
    have hni : n.id ∉ rest.map AINode.id := (List.nodup_cons.mp hnd).1
    have hnomatch2 : ∀ k ∈ rest,
        ∀ op ∈ e.pendingOps ++ [DeferredNodeOp.addOp n.name xy.1 xy.2 n.id],
        addOpBound op ≠ some k.id := by
      intro k hk op hop hbad
      rcases List.mem_append.mp hop with h1 | h1
      · exact hnomatch k (List.mem_cons_of_mem n hk) op h1 hbad
      · have := List.mem_singleton.mp h1
        subst this
        have hkid : k.id = n.id := by
          have : some n.id = some k.id := hbad
          injection this with h2
          exact h2.symm
        exact hni (hkid ▸ List.mem_map_of_mem AINode.id hk)
    obtain ⟨ops, hops, hbounds⟩ :=
      ih { e with pendingOps := e.pendingOps
            ++ [DeferredNodeOp.addOp n.name xy.1 xy.2 n.id] }
        (fun k hk => hdec k (List.mem_cons_of_mem n hk)) hnd2 hnomatch2
    refine ⟨DeferredNodeOp.addOp n.name xy.1 xy.2 n.id :: ops, ?_, ?_⟩
    · show syncAddNodes stof (n :: rest) e = _
      unfold syncAddNodes
      dsimp only
      rw [hxy]
      dsimp only
      rw [hq, hops, List.append_assoc]
      rfl
    · rw [List.map_cons, hbounds, List.map_cons]
      rfl

theorem editorRemoveFold (R : List Int) : ∀ (e : NodeEditor),
    (R.map DeferredNodeOp.removeOp).foldl applyDeferredOp e
      = { e with nodes := e.nodes.filter (fun n => !(R.contains n.id)),
                 links := e.links.filter (fun l =>
                   !(R.contains l.start_node || R.contains l.end_node)) } := by
  induction R with
  | nil =>
    intro e
    rw [List.map_nil, List.foldl_nil]
    have h1 : e.nodes.filter (fun n => !(([] : List Int).contains n.id)) = e.nodes :=
      List.filter_eq_self.mpr (fun n _ => rfl)
    have h2 : e.links.filter (fun l => !((([] : List Int).contains l.start_node
        || ([] : List Int).contains l.end_node))) = e.links :=
      List.filter_eq_self.mpr (fun l _ => rfl)
    rw [h1, h2]
  | cons i R ih =>
    intro e
    rw [List.map_cons, List.foldl_cons, ih]
    show ({ e with
        links := (e.links.filter (fun l =>
            !(l.start_node == i || l.end_node == i))).filter (fun l =>
          !(R.contains l.start_node || R.contains l.end_node)),
        nodes := (e.nodes.filter (fun n => n.id != i)).filter (fun n =>
          !(R.contains n.id)) } : NodeEditor) = _
    have hn : (e.nodes.filter (fun n => n.id != i)).filter (fun n => !(R.contains n.id))
        = e.nodes.filter (fun n => !((i :: R).contains n.id)) := by
      rw [List.filter_filter]
      apply List.filter_congr
      intro n _
      rw [contains_cons_eq]
      by_cases h : (n.id == i) = true
      · simp [h, bne]
      · rw [Bool.not_eq_true] at h
        simp [h, bne]
    have hl : (e.links.filter (fun l =>
          !(l.start_node == i || l.end_node == i))).filter (fun l =>
        !(R.contains l.start_node || R.contains l.end_node))
        = e.links.filter (fun l =>
          !((i :: R).contains l.start_node || (i :: R).contains l.end_node)) := by
      rw [List.filter_filter]
      apply List.filter_congr
      intro l _
      rw [contains_cons_eq, contains_cons_eq]
      cases h1 : (l.start_node == i) <;>
        cases h2 : (l.end_node == i) <;>
          cases h3 : R.contains l.start_node <;>
            cases h4 : R.contains l.end_node <;> rfl
    rw [hn, hl]

theorem idmapInsert_append {α : Type} (key : α → Int) (l : List α) (i : Int) (x : α)
    (h : ∀ y ∈ l, key y < i) : idmapInsert key l i x = l ++ [x] := by
  induction l with
  | nil => rfl
  | cons z rest ih =>
    unfold idmapInsert
    have hz := h z (List.mem_cons_self z rest)
    rw [if_neg (by omega), if_neg (by omega),
      ih (fun y hy => h y (List.mem_cons_of_mem z hy))]
    rfl

theorem editorAddFold (ops : List DeferredNodeOp) :
    ∀ (e : NodeEditor),
    (∀ op ∈ ops, (addOpBound op).isSome = true) →
    (∀ n ∈ e.nodes, n.id < e.currentId) →
    ((ops.foldl applyDeferredOp e).nodes.length = e.nodes.length + ops.length
      ∧ (ops.foldl applyDeferredOp e).nodes.map UINode.boundAINodeId
          = e.nodes.map UINode.boundAINodeId ++ ops.filterMap addOpBound
      ∧ (∀ n ∈ (ops.foldl applyDeferredOp e).nodes,
          n ∈ e.nodes ∨ (n.inputs.length = 1 ∧ n.outputs.length = 1))
      ∧ (ops.foldl applyDeferredOp e).links = e.links
      ∧ (∀ n ∈ (ops.foldl applyDeferredOp e).nodes,
          n.id < (ops.foldl applyDeferredOp e).currentId)
      ∧ (ops.foldl applyDeferredOp e).pendingConnections = e.pendingConnections) := by
  induction ops with
  | nil =>
    intro e _ hbound
    exact ⟨rfl, by simp, fun n hn => Or.inl hn, rfl, hbound, rfl⟩
  | cons op rest ih =>
    intro e hadd hbound
    cases op with
    | removeOp r =>
      have := hadd (DeferredNodeOp.removeOp r) (List.mem_cons_self _ _)
      simp [addOpBound] at this
    | addOp nm px py b =>
      rw [List.foldl_cons, applyDeferredOp_add_eq,
        idmapInsert_append UINode.id e.nodes e.currentId _ hbound]
      have hbound2 : ∀ n ∈ e.nodes ++ [newUINode e.currentId nm px py b],
          n.id < e.currentId + 3 := by
        intro n hn
        rcases List.mem_append.mp hn with h1 | h1
        · have := hbound n h1
          omega
        · have := List.mem_singleton.mp h1
          subst this
          show (e.currentId : Int) < e.currentId + 3
          omega
      obtain ⟨ih1, ih2, ih3, ih4, ih5, ih6⟩ :=
        ih ({ e with
              currentId := e.currentId + 3
              nodes := e.nodes ++ [newUINode e.currentId nm px py b] })
          (fun k hk => hadd k (List.mem_cons_of_mem _ hk)) hbound2
      refine ⟨?_, ?_, ?_, ih4, ih5, ih6⟩
      · rw [ih1]
        show (e.nodes ++ [newUINode e.currentId nm px py b]).length + rest.length
          = e.nodes.length + (rest.length + 1)
        rw [List.length_append]
        simp only [List.length_singleton]
        omega
      · rw [ih2]
        show (e.nodes ++ [newUINode e.currentId nm px py b]).map UINode.boundAINodeId
            ++ rest.filterMap addOpBound
          = e.nodes.map UINode.boundAINodeId
            ++ (DeferredNodeOp.addOp nm px py b :: rest).filterMap addOpBound
        rw [List.map_append, List.append_assoc]
        rfl
      · intro n hn
        rcases ih3 n hn with h1 | h1
        · rcases List.mem_append.mp h1 with h2 | h2
          · exact Or.inl h2
          · have := List.mem_singleton.mp h2
            subst this
            exact Or.inr ⟨rfl, rfl⟩
        · exact Or.inr h1

/-- The model after the push's clear loop (`RemoveNode` per snapshot id). -/
def clearedModel (m : AIModel) : AIModel :=
  (m.nodes.map AINode.id).foldl (fun acc i => (acc.removeNode i).1) m

/-- The model after the push's re-create loop. -/
def pushedModel (fts : ℚ → String) (e : NodeEditor) (m : AIModel) : AIModel :=
  e.nodes.foldl (fun acc n => (acc.addNode (pushedNode fts n)).1) (clearedModel m)

theorem syncEditorToModel_eq (fts : ℚ → String) (e : NodeEditor) (m : AIModel) :
    syncEditorToModel fts e m = syncLinks e.links (pushedModel fts e m) := rfl

theorem contains_of_mem {l : List Int} {a : Int} (h : a ∈ l) : l.contains a = true := by
  induction l with
  | nil => cases h
  | cons b t ih =>
    rw [contains_cons_eq]
    rcases List.mem_cons.mp h with h1 | h1
    · subst h1
      simp
    · rw [ih h1]
      simp

theorem filterMap_of_map_eq_some {α β : Type} (f : α → Option β) :
    ∀ (l : List α) (l2 : List β), l.map f = l2.map some → l.filterMap f = l2 := by
  intro l
  induction l with
  | nil =>
    intro l2 h
    cases l2 with
    | nil => rfl
    | cons b t => simp at h
  | cons a t ih =>
    intro l2 h
    cases l2 with
    | nil => simp at h
    | cons b t2 =>
      rw [List.map_cons, List.map_cons] at h
      injection h with h1 h2
      rw [List.filterMap_cons, h1, ih t2 h2]

theorem genModelNodes_length (fts : ℚ → String) (ens : List UINode) : ∀ (pc : Int),
    (genModelNodes fts pc ens).length = ens.length := by
  induction ens with
  | nil => intro pc; rfl
  | cons en rest ih =>
    intro pc
    unfold genModelNodes
    rw [List.length_cons, ih]
    rfl

theorem links_of_wf_nil (e : NodeEditor) (hwfl : LinksWF e.nodes e.links)
    (h : e.nodes = []) : e.links = [] := by
  cases hl : e.links with
  | nil => rfl
  | cons l t =>
    obtain ⟨⟨n, hn, _⟩, _⟩ := hwfl l (by rw [hl]; exact List.mem_cons_self l t)
    rw [h] at hn
    cases hn

/-- C2 (amended): for every editor state reachable by the editor's own
allocation discipline (duplicate-free node ids, attribute ids at least
1, no dangling links, empty deferral queues) and every well-formed
model store, the push-then-pull round trip (letting the next pass apply
the queued operations) reproduces the node count and the per-node
1-input/1-output port-direction structure, with each resulting node
bound to the original editor node id — but every link is dropped: the
push passes attribute ids as port indices to `AddConnection`, which
rejects them, so the pulled-back editor has no links at all. -/
theorem C2_roundtrip_amended (fts : ℚ → String) (stof : String → Option ℚ)
    (e : NodeEditor) (m : AIModel)
    (hstof : ∀ q : ℚ, ∃ x, stof (fts q) = some x)
    (heids : (e.nodes.map UINode.id).Nodup)
    (hattrs : ∀ l ∈ e.links, 1 ≤ l.start_attr)
    (hwfl : LinksWF e.nodes e.links)
    (hpo : e.pendingOps = [])
    (hpc : e.pendingConnections = [])
    (hmpid : (m.allPorts.map Port.id).Nodup)
    (hmports : ∀ p ∈ m.allPorts, ∃ n ∈ m.nodes, p.nodeId = n.id)
    (hmedges : ∀ ed ∈ m.edges, (∃ fp, m.getPort ed.fromPortId = some fp)
        ∧ (∃ tp, m.getPort ed.toPortId = some tp)) :
    ∃ e2, roundTrip fts stof e m = some e2
      ∧ e2.nodes.length = e.nodes.length
      ∧ e2.nodes.map UINode.boundAINodeId = e.nodes.map UINode.id
      ∧ (∀ n ∈ e2.nodes, n.inputs.length = 1 ∧ n.outputs.length = 1)
      ∧ e2.links = [] := by
  -- ===== the push =====
  obtain ⟨r1, r2, r3, r4, r5⟩ := removeFoldModel (m.nodes.map AINode.id) m hmpid
  have hclearNodes : (clearedModel m).nodes = [] := by
    show ((m.nodes.map AINode.id).foldl (fun acc i => (acc.removeNode i).1) m).nodes = []
    rw [r1]
    apply List.filter_eq_nil_iff.mpr
    intro n hn
    rw [contains_of_mem (List.mem_map_of_mem AINode.id hn)]
    simp
  have hclearNext : (clearedModel m).nextPortId = m.nextPortId := r4
  have hclearEdges : (clearedModel m).edges = [] := by
    show ((m.nodes.map AINode.id).foldl (fun acc i => (acc.removeNode i).1) m).edges = []
    rw [r3]
    apply List.filter_eq_nil_iff.mpr
    intro ed hed
    obtain ⟨⟨fp, hfp⟩, tp, htp⟩ := hmedges ed hed
    unfold edgeSurvives
    rw [hfp, htp]
    dsimp only
    obtain ⟨n1, hn1, he1⟩ := hmports fp (getPort_mem m _ fp hfp)
    have : (m.nodes.map AINode.id).contains fp.nodeId = true := by
      rw [he1]
      exact contains_of_mem (List.mem_map_of_mem AINode.id hn1)
    rw [this]
    simp
  have hM2nodes : (pushedModel fts e m).nodes = genModelNodes fts m.nextPortId e.nodes := by
    unfold pushedModel
    obtain ⟨p1, -, -⟩ := pushAdds fts e.nodes (clearedModel m)
    rw [p1, hclearNodes, hclearNext, List.nil_append]
  have hM2edges : (pushedModel fts e m).edges = [] := by
    unfold pushedModel
    obtain ⟨-, -, p3⟩ := pushAdds fts e.nodes (clearedModel m)
    rw [p3, hclearEdges]
  have hpush : syncEditorToModel fts e m = some (pushedModel fts e m) := by
    rw [syncEditorToModel_eq]
    apply syncLinks_allRejected
    · intro n hn
      rw [hM2nodes] at hn
      exact (genModelNodes_shape fts e.nodes m.nextPortId n hn).1
    · exact hattrs
  -- ===== the pull =====
  have hremfold := queueRemoves_spec e.nodes { e with callbackInstalled := false } heids
    (by
      intro n _ hmem
      dsimp only at hmem
      rw [hpo] at hmem
      exact absurd hmem (List.not_mem_nil _))
  have hdecs : ∀ n ∈ genModelNodes fts m.nextPortId e.nodes,
      ∃ xy, decodePos stof n.parameters (100 + ((n.id : ℚ) - 1) * 150) 100 = some xy := by
    intro n hn
    obtain ⟨-, -, a, b, hp⟩ := genModelNodes_shape fts e.nodes m.nextPortId n hn
    rw [hp]
    exact decodePos_gen stof fts hstof a b _ _
  have hndgen : ((genModelNodes fts m.nextPortId e.nodes).map AINode.id).Nodup := by
    rw [genModelNodes_map_id]
    exact heids
  have hnomatch : ∀ n ∈ genModelNodes fts m.nextPortId e.nodes,
      ∀ op ∈ ({ e with callbackInstalled := false } : NodeEditor).pendingOps
        ++ e.nodes.map (fun n => DeferredNodeOp.removeOp n.id),
      addOpBound op ≠ some n.id := by
    intro n _ op hop
    dsimp only at hop
    rw [hpo, List.nil_append] at hop
    obtain ⟨k, -, hk⟩ := List.mem_map.mp hop
    rw [← hk]
    intro hc
    simp [addOpBound] at hc
  obtain ⟨ops, hops, hbounds⟩ := syncAddNodes_spec stof
    (genModelNodes fts m.nextPortId e.nodes)
    { ({ e with callbackInstalled := false } : NodeEditor) with
      pendingOps := ({ e with callbackInstalled := false } : NodeEditor).pendingOps
        ++ e.nodes.map fun n => DeferredNodeOp.removeOp n.id }
    hdecs hndgen hnomatch
  dsimp only at hremfold hops
  have hconns : ∀ X, syncQueueConns (pushedModel fts e m) X = X := by
    intro X
    unfold syncQueueConns
    rw [hM2edges]
    rfl
  have hpull : syncModelToEditor stof e (pushedModel fts e m)
      = ({ e with
            callbackInstalled := true
            pendingOps := (e.pendingOps
              ++ e.nodes.map fun n => DeferredNodeOp.removeOp n.id) ++ ops }, true) := by
    unfold syncModelToEditor
    dsimp only
    rw [hremfold, hM2nodes, hops]
    dsimp only
    rw [hconns]
    rfl
  -- ===== the next render pass =====
  have hRT : roundTrip fts stof e m = some
      ({ e with
          callbackInstalled := true
          pendingOps := (e.pendingOps
            ++ e.nodes.map fun n => DeferredNodeOp.removeOp n.id) ++ ops } :
        NodeEditor).renderPass.1 := by
    unfold roundTrip
    rw [hpush]
    dsimp only
    rw [hpull]
    rfl
  by_cases hnil : e.nodes = []
  · have hops0 : ops = [] := by
      have hb := hbounds
      rw [hnil] at hb
      cases ops with
      | nil => rfl
      | cons a t => simp [genModelNodes] at hb
    have hrender0 : ({ e with
        callbackInstalled := true
        pendingOps := (e.pendingOps
          ++ e.nodes.map fun n => DeferredNodeOp.removeOp n.id) ++ ops } :
          NodeEditor).renderPass
        = ({ e with callbackInstalled := true, pendingOps := [] }, 0) := by
      unfold NodeEditor.renderPass processDeferredOps
      dsimp only
      rw [hpo, hnil, hops0]
      rfl
    refine ⟨_, hRT, ?_, ?_, ?_, ?_⟩
    · rw [hrender0]
    · rw [hrender0]
      dsimp only
      rw [hnil]
      rfl
    · rw [hrender0]
      intro n hn
      dsimp only at hn
      rw [hnil] at hn
      cases hn
    · rw [hrender0]
      exact links_of_wf_nil e hwfl hnil
  · obtain ⟨n0, ens, hcons⟩ : ∃ n0 ens, e.nodes = n0 :: ens := by
      cases h : e.nodes with
      | nil => exact absurd h hnil
      | cons a b => exact ⟨a, b, rfl⟩
    have hP : (e.pendingOps ++ e.nodes.map fun n => DeferredNodeOp.removeOp n.id) ++ ops
        = (e.nodes.map UINode.id).map DeferredNodeOp.removeOp ++ ops := by
      rw [hpo, List.nil_append, List.map_map]
      rfl
    have hPne : (((e.nodes.map UINode.id).map DeferredNodeOp.removeOp ++ ops)).isEmpty
        = false := by
      rw [hcons]
      rfl
    have hb1 : e.nodes.filter (fun n => !((e.nodes.map UINode.id).contains n.id)) = [] := by
      apply List.filter_eq_nil_iff.mpr
      intro n hn
      rw [contains_of_mem (List.mem_map_of_mem UINode.id hn)]
      simp
    have hb2 : e.links.filter (fun l => !((e.nodes.map UINode.id).contains l.start_node
        || (e.nodes.map UINode.id).contains l.end_node)) = [] := by
      apply List.filter_eq_nil_iff.mpr
      intro l hl
      obtain ⟨⟨k1, hk1, he1⟩, -⟩ := hwfl l hl
      have : (e.nodes.map UINode.id).contains l.start_node = true := by
        rw [← he1]
        exact contains_of_mem (List.mem_map_of_mem UINode.id hk1)
      rw [this]
      simp
    have hfold1 : ((e.nodes.map UINode.id).map DeferredNodeOp.removeOp).foldl applyDeferredOp
        ({ e with callbackInstalled := true, pendingOps := [] } : NodeEditor)
        = ({ e with
              callbackInstalled := true
              pendingOps := []
              nodes := []
              links := [] } : NodeEditor) := by
      rw [editorRemoveFold]
      dsimp only
      rw [hb1, hb2]
    have haddsome : ∀ op ∈ ops, (addOpBound op).isSome = true := by
      intro op hop
      have h1 : addOpBound op ∈ ops.map addOpBound := List.mem_map_of_mem _ hop
      rw [hbounds] at h1
      obtain ⟨k, -, hk⟩ := List.mem_map.mp h1
      rw [← hk]
      rfl
    obtain ⟨f1, f2, f3, f4, f5, f6⟩ := editorAddFold ops
      ({ e with
          callbackInstalled := true
          pendingOps := []
          nodes := []
          links := [] } : NodeEditor)
      haddsome (by intro n hn; cases hn)
    have hc6 : (ops.foldl applyDeferredOp
        ({ e with
            callbackInstalled := true
            pendingOps := []
            nodes := []
            links := [] } : NodeEditor)).pendingConnections = [] := by
      rw [f6]
      exact hpc
    have hopslen : ops.length = e.nodes.length := by
      have hlen := congrArg List.length hbounds
      rw [List.length_map, List.length_map, genModelNodes_length] at hlen
      exact hlen
    have hfm : ops.filterMap addOpBound = e.nodes.map UINode.id := by
      have h1 : ops.filterMap addOpBound
          = (genModelNodes fts m.nextPortId e.nodes).map AINode.id := by
        apply filterMap_of_map_eq_some
        rw [hbounds, List.map_map]
        rfl
      rw [h1, genModelNodes_map_id]
    have hrender : ({ e with
        callbackInstalled := true
        pendingOps := (e.pendingOps
          ++ e.nodes.map fun n => DeferredNodeOp.removeOp n.id) ++ ops } :
          NodeEditor).renderPass
        = ({ (ops.foldl applyDeferredOp
              ({ e with
                  callbackInstalled := true
                  pendingOps := []
                  nodes := []
                  links := [] } : NodeEditor)) with pendingConnections := [] }, 1) := by
      unfold NodeEditor.renderPass processDeferredOps
      dsimp only
      rw [hP, hPne]
      simp only [Bool.false_eq_true, if_false]
      rw [List.foldl_append, hfold1, hc6]
      rfl
    refine ⟨_, hRT, ?_, ?_, ?_, ?_⟩
    · rw [hrender]
      dsimp only
      rw [f1]
      dsimp only
      rw [List.length_nil, hopslen]
      omega
    · rw [hrender]
      dsimp only
      rw [f2]
      dsimp only
      rw [List.map_nil, List.nil_append, hfm]
    · rw [hrender]
      intro n hn
      dsimp only at hn
      rcases f3 n hn with h1 | h1
      · cases h1
      · exact h1
    · rw [hrender]
      dsimp only
      rw [f4]

/-- Witness for C2: the two-node editor with a link, pushed into the
empty store, round-trips with node count and bound-id correspondence
preserved and all links dropped. -/
theorem C2_roundtrip_amended_witness :
    ∃ e2, roundTrip (fun _ => "0") (fun _ => some 0) eTwo initialModel = some e2
      ∧ e2.nodes.length = eTwo.nodes.length
      ∧ e2.nodes.map UINode.boundAINodeId = eTwo.nodes.map UINode.id
      ∧ (∀ n ∈ e2.nodes, n.inputs.length = 1 ∧ n.outputs.length = 1)
      ∧ e2.links = [] :=
  C2_roundtrip_amended (fun _ => "0") (fun _ => some 0) eTwo initialModel
    (fun _ => ⟨0, rfl⟩)
    (by decide)
    (by decide)
    (by unfold LinksWF; decide)
    rfl rfl
    (by decide)
    (by intro p hp; exact absurd hp (List.not_mem_nil p))
    (by intro ed hed; exact absurd hed (List.not_mem_nil ed))

/-! ### The execution scheduler: `StartExecution`, `ExecutionLoop`,
`ExecuteNode`, `ReportProgress` -/

/-- One progress event as handed to the progress callback
(`ExecutionProgress` in `AIModel.h`); a run's observable behaviour is
the list of events delivered, assuming a progress callback is
installed. -/
structure ExecutionProgress where
  nodeId : Int
  nodeName : String
  progress : ℚ
  status : String
  message : String
deriving DecidableEq, Repr

/-- `indegree_` is an `unordered_map<int,int>`; it is embedded as an
association list iterated in insertion order.  No property proved about
the scheduler depends on the (unspecified) iteration order of the real
container.  `alookup` is `find`. -/
def alookup (k : Int) : List (Int × Int) → Option Int
  | [] => none
  | (a, b) :: t => if a == k then some b else alookup k t

/-- `map[k] = v`: overwrite in place, or append a fresh entry. -/
def aset (k v : Int) : List (Int × Int) → List (Int × Int)
  | [] => [(k, v)]
  | (a, b) :: t => if a == k then (k, v) :: t else (a, b) :: aset k v t

/-- `if (map.find(k) == map.end()) map[k] = 0;` -/
def ensureKey (k : Int) (ind : List (Int × Int)) : List (Int × Int) :=
  match alookup k ind with
  | some _ => ind
  | none => ind ++ [(k, 0)]

/-- `map[k]++` (`operator[]` default-inserts a zero first). -/
def incrKey (k : Int) : List (Int × Int) → List (Int × Int)
  | [] => [(k, 1)]
  | (a, b) :: t => if a == k then (a, b + 1) :: t else (a, b) :: incrKey k t

/-- `adjacency_[k].push_back(v)` (`operator[]` default-inserts an empty
vector). -/
def apushAdj (k v : Int) : List (Int × List Int) → List (Int × List Int)
  | [] => [(k, [v])]
  | (a, l) :: t => if a == k then (a, l ++ [v]) :: t else (a, l) :: apushAdj k v t

/-- `adjacency_.find(k)`. -/
def alookupAdj (k : Int) : List (Int × List Int) → Option (List Int)
  | [] => none
  | (a, l) :: t => if a == k then some l else alookupAdj k t

/-- The scheduler state of `AIModel` (`indegree_`, `adjacency_`,
`readyQueue_`, `remainingNodes_`, `executing_`) together with the
progress events delivered so far. -/
structure RunState where
  indegree : List (Int × Int)
  adjacency : List (Int × List Int)
  readyQueue : List Int
  remainingNodes : Int
  executing : Bool
  events : List ExecutionProgress
deriving DecidableEq, Repr

/-- The node-name lookup inside `ReportProgress` (`std::find_if` from
the front: first match wins, `"Unknown"` otherwise). -/
def AIModel.nodeNameOf (m : AIModel) (nodeId : Int) : String :=
  match m.nodes.find? (fun n => n.id == nodeId) with
  | some n => n.name
  | none => "Unknown"

/-- One `ReportProgress` delivery. -/
def mkProgress (m : AIModel) (nodeId : Int) (progress : ℚ)
    (status message : String) : ExecutionProgress :=
  { nodeId := nodeId, nodeName := m.nodeNameOf nodeId, progress := progress,
    status := status, message := message }

/-- `AIModel::ExecuteNode`: the events one node execution delivers.  A
node id absent from the store returns early with no events; otherwise a
`running`@0 start event, the per-type simulated schedule (`Conv2D`:
`i * 0.1f` for `i = 1..10`; `MaxPool`: `i * 0.2f` for `i = 1..5`;
otherwise `i * 0.125f` for `i = 1..8`), and a final `completed`@1
event.  The float steps are embedded as the exact rationals they
denote. -/
def executeNode (m : AIModel) (nodeId : Int) : List ExecutionProgress :=
  match m.nodes.find? (fun n => n.id == nodeId) with
  | none => []
  | some node =>
    [mkProgress m nodeId 0 "running" "Starting execution"]
      ++ (if node.type == "Conv2D" then
            (List.range 10).map (fun i : Nat =>
              mkProgress m nodeId (((i : ℚ) + 1) * (1/10)) "running"
                "Processing convolution layer")
          else if node.type == "MaxPool" then
            (List.range 5).map (fun i : Nat =>
              mkProgress m nodeId (((i : ℚ) + 1) * (1/5)) "running"
                "Processing pooling layer")
          else
            (List.range 8).map (fun i : Nat =>
              mkProgress m nodeId (((i : ℚ) + 1) * (1/8)) "running"
                ("Processing " ++ node.type)))
      ++ [mkProgress m nodeId 1 "completed" "Execution completed successfully"]

/-- The per-edge body of the graph-building loop of `StartExecution`:
resolve both ports, and if both resolve, record the adjacency entry,
ensure both indegree keys exist and increment the destination's
indegree. -/
def schedStep (m : AIModel) (acc : List (Int × Int) × List (Int × List Int))
    (e : Edge) : List (Int × Int) × List (Int × List Int) :=
  match m.getPort e.fromPortId with
  | none => acc
  | some fromPort =>
    match m.getPort e.toPortId with
    | none => acc
    | some toPort =>
      (incrKey toPort.nodeId
          (ensureKey fromPort.nodeId (ensureKey toPort.nodeId acc.1)),
        apushAdj fromPort.nodeId toPort.nodeId acc.2)

/-- `indegree_`/`adjacency_` as the build loop of `StartExecution`
leaves them: indegree seeded to zero for every node, then one pass over
the edges. -/
def buildSchedGraph (m : AIModel) : List (Int × Int) × List (Int × List Int) :=
  m.edges.foldl (schedStep m)
    (m.nodes.foldl (fun acc n => aset n.id 0 acc) [], [])

/-- `AIModel::StartExecution`: build the dependency graph, seed the
ready queue with the zero-indegree entries, and abort
(`executing_ = false`, no worker started) when the store is non-empty
but the seeded queue is empty.  The store is returned unchanged
alongside the run state: the method never touches `nodes_`, `edges_` or
`allPorts_`. -/
def startExecution (m : AIModel) : AIModel × RunState :=
  let built := buildSchedGraph m
  let ready := (built.1.filter (fun p => p.2 == 0)).map Prod.fst
  if 0 < m.nodes.length ∧ ready = [] then
    (m,
      { indegree := built.1
        adjacency := built.2
        readyQueue := ready
        remainingNodes := 0
        executing := false
        events := [] })
  else
    (m,
      { indegree := built.1
        adjacency := built.2
        readyQueue := ready
        remainingNodes := (m.nodes.length : Int)
        executing := true
        events := [] })

/-- The per-successor body of `ExecutionLoop`: decrement the
successor's indegree (ids missing from `indegree_` are skipped) and
push it on the ready queue when the count reaches zero. -/
def decPush (st : RunState) (succ : Int) : RunState :=
  match alookup succ st.indegree with
  | none => st
  | some d =>
    if d - 1 == 0 then
      { st with
          indegree := aset succ (d - 1) st.indegree
          readyQueue := st.readyQueue ++ [succ] }
    else
      { st with indegree := aset succ (d - 1) st.indegree }

/-- The post-`ExecuteNode` bookkeeping: walk `adjacency_[nodeId]` when
the entry exists. -/
def processSuccs (st : RunState) (nodeId : Int) : RunState :=
  match alookupAdj nodeId st.adjacency with
  | none => st
  | some succs => succs.foldl decPush st

/-- One iteration of the `ExecutionLoop` body after a node id was
popped: run the node (appending its events), process its successors,
decrement `remainingNodes_`, and clear `executing_` when it reaches
zero. -/
def execOnce (m : AIModel) (s : RunState) (nodeId : Int)
    (rest : List Int) : RunState :=
  let s1 := { s with
    readyQueue := rest
    events := s.events ++ executeNode m nodeId }
  let s2 := processSuccs s1 nodeId
  let s3 := { s2 with remainingNodes := s2.remainingNodes - 1 }
  if s3.remainingNodes ≤ 0 then { s3 with executing := false } else s3

/-- `AIModel::ExecutionLoop`, sequentialized to a single worker: every
queue/indegree/counter mutation in the source is protected by
`queueMutex_` and `ExecuteNode` only delivers events, so per-node event
sequences and completion counts are those of this fuel-indexed loop.  A
worker that finds the queue empty while `executing_` holds blocks on
the condition variable: the loop returns the state unchanged. -/
def execLoop (m : AIModel) : Nat → RunState → RunState
  | 0, s => s
  | fuel + 1, s =>
    if s.executing then
      match s.readyQueue with
      | [] => s
      | nodeId :: rest => execLoop m fuel (execOnce m s nodeId rest)
    else s

/-- The (source node id, destination node id) pairs of the edges whose
two ports resolve, in store order: exactly the pairs the build loop of
`StartExecution` processes. -/
def pairOf (m : AIModel) (e : Edge) : Option (Int × Int) :=
  match m.getPort e.fromPortId with
  | none => none
  | some fromPort =>
    match m.getPort e.toPortId with
    | none => none
    | some toPort => some (fromPort.nodeId, toPort.nodeId)

def edgePairs (m : AIModel) : List (Int × Int) :=
  m.edges.filterMap (pairOf m)

/-- Multiplicity of still-active incoming pairs of `b`: pairs `(a, b)`
whose source `a` has not yet finished executing. -/
def incount (ps : List (Int × Int)) (b : Int) (done : List Int) : Nat :=
  (ps.filter (fun pr => pr.2 == b && !(done.contains pr.1))).length

/-- Successor list of `n` as the adjacency build produces it. -/
def psuccs (ps : List (Int × Int)) (n : Int) : List Int :=
  (ps.filter (fun pr => pr.1 == n)).map Prod.snd

/-- Number of `completed` events carried by a given node id. -/
def completedCount (evs : List ExecutionProgress) (n : Int) : Nat :=
  (evs.filter (fun ev => ev.status == "completed" && ev.nodeId == n)).length

/-- Total number of `completed` events. -/
def completedTotal (evs : List ExecutionProgress) : Nat :=
  (evs.filter (fun ev => ev.status == "completed")).length

/-- The indegree map in node-keyed normal form: one entry per store
node, in store order. -/
def indegRep (ns : List Int) (g : Int → Int) : List (Int × Int) :=
  ns.map (fun i => (i, g i))

/-- The pair-level build step: `schedStep` after port resolution. -/
def pairStep (acc : List (Int × Int) × List (Int × List Int))
    (pr : Int × Int) : List (Int × Int) × List (Int × List Int) :=
  (incrKey pr.2 (ensureKey pr.1 (ensureKey pr.2 acc.1)),
    apushAdj pr.1 pr.2 acc.2)

/-- Adjacency lookup with the `operator[]` default. -/
def lookupAdjD (k : Int) (adj : List (Int × List Int)) : List Int :=
  (alookupAdj k adj).getD []

/-- A worker with `executing_` already false does nothing: the loop
exits immediately. -/
theorem execLoop_halted (m : AIModel) (s : RunState)
    (hex : s.executing = false) : ∀ fuel, execLoop m fuel s = s := by
  intro fuel
  cases fuel with
  | zero => rfl
  | succ k =>
    unfold execLoop
    rw [hex]
    rfl

/-- C3: if the store's node set is non-empty and the built dependency
graph gives every indegree entry a non-zero count (in particular when
all nodes lie on directed cycles), `StartExecution` aborts before
starting any worker: the store is untouched, `executing_` is cleared,
no progress event is delivered, and any amount of subsequent worker
activity leaves the run state unchanged. -/
theorem C3_cycle_abort (m : AIModel)
    (hne : m.nodes ≠ [])
    (hpos : ∀ pr ∈ (buildSchedGraph m).1, pr.2 ≠ 0) :
    (startExecution m).1 = m
      ∧ (startExecution m).2.events = []
      ∧ (startExecution m).2.executing = false
      ∧ (startExecution m).2.readyQueue = []
      ∧ ∀ fuel, execLoop m fuel (startExecution m).2 = (startExecution m).2 := by
  have h0 : (buildSchedGraph m).1.filter (fun p => p.2 == 0) = [] := by
    apply List.filter_eq_nil_iff.mpr
    intro pr hpr
    have h := hpos pr hpr
    simp only [beq_iff_eq]
    exact h
  have hready : (((buildSchedGraph m).1.filter
      (fun p => p.2 == 0)).map Prod.fst) = [] := by
    rw [h0]
    rfl
  have hstart : startExecution m = (m,
      { indegree := (buildSchedGraph m).1
        adjacency := (buildSchedGraph m).2
        readyQueue := (((buildSchedGraph m).1.filter
          (fun p => p.2 == 0)).map Prod.fst)
        remainingNodes := 0
        executing := false
        events := [] }) := by
    unfold startExecution
    dsimp only
    rw [if_pos ⟨List.length_pos.mpr hne, hready⟩]
  refine ⟨?_, ?_, ?_, ?_, ?_⟩
  · rw [hstart]
  · rw [hstart]
  · rw [hstart]
  · rw [hstart]
    exact hready
  · intro fuel
    apply execLoop_halted
    rw [hstart]

/-- The two-node cycle used as the C3 scenario: node 1's output feeds
node 2's input and node 2's output feeds node 1's input. -/
def cp1 : Port := { id := 10, name := "out", dataType := "", isInput := false, nodeId := 1 }

def cp2 : Port := { id := 11, name := "in", dataType := "", isInput := true, nodeId := 2 }

def cp3 : Port := { id := 12, name := "out", dataType := "", isInput := false, nodeId := 2 }

def cp4 : Port := { id := 13, name := "in", dataType := "", isInput := true, nodeId := 1 }

def cnA : AINode :=
  { id := 1, type := "Generic", name := "A", parameters := [],
    inputPorts := [cp4], outputPorts := [cp1], boundUINodeId := -1 }

def cnB : AINode :=
  { id := 2, type := "Generic", name := "B", parameters := [],
    inputPorts := [cp2], outputPorts := [cp3], boundUINodeId := -1 }

def mCycle : AIModel :=
  { nodes := [cnA, cnB],
    edges := [{ id := 100, fromPortId := 10, toPortId := 11, dataType := "" },
      { id := 101, fromPortId := 12, toPortId := 13, dataType := "" }],
    allPorts := [cp4, cp1, cp2, cp3], nextPortId := 14, nextEdgeId := 102 }

/-- Witness for C3 on the concrete two-node cycle. -/
theorem C3_cycle_abort_witness :
    (startExecution mCycle).1 = mCycle
      ∧ (startExecution mCycle).2.events = []
      ∧ (startExecution mCycle).2.executing = false
      ∧ execLoop mCycle 3 (startExecution mCycle).2 = (startExecution mCycle).2 := by
  have h := C3_cycle_abort mCycle (by decide) (by decide)
  exact ⟨h.1, h.2.1, h.2.2.1, h.2.2.2.2 3⟩


/-- Shape lemma for one `ExecuteNode` trace: a `running`@0 start, a
non-decreasing positive schedule of `k` steps of size `q` ending at
`k * q = 1`, and a single final `completed`@1 event. -/
theorem schedTrace_spec (m : AIModel) (nodeId : Int) (k : Nat) (q : ℚ)
    (msgMid : String) (tr : List ExecutionProgress)
    (hq : 0 < q) (hkq : (k : ℚ) * q = 1)
    (htr : tr = [mkProgress m nodeId 0 "running" "Starting execution"]
        ++ (List.range k).map (fun i : Nat =>
              mkProgress m nodeId (((i : ℚ) + 1) * q) "running" msgMid)
        ++ [mkProgress m nodeId 1 "completed" "Execution completed successfully"]) :
    tr.head? = some (mkProgress m nodeId 0 "running" "Starting execution")
    ∧ tr.getLast? = some (mkProgress m nodeId 1 "completed"
        "Execution completed successfully")
    ∧ List.Chain' (fun a b => a.progress ≤ b.progress) tr
    ∧ (∀ ev ∈ tr, ev.nodeId = nodeId)
    ∧ tr.dropLast.filter (fun ev => ev.status == "completed") = []
    ∧ (∀ i : Int, (tr.filter (fun ev => ev.status == "completed"
          && ev.nodeId == i)).length = if nodeId = i then 1 else 0)
    ∧ (tr.filter (fun ev => ev.status == "completed")).length = 1 := by
  subst htr
  have hmid : ∀ ev ∈ (List.range k).map (fun i : Nat =>
      mkProgress m nodeId (((i : ℚ) + 1) * q) "running" msgMid),
      ev.status = "running" ∧ ev.nodeId = nodeId
        ∧ ∃ i : Nat, i < k ∧ ev.progress = ((i : ℚ) + 1) * q := by
    intro ev hev
    obtain ⟨i, hi, rfl⟩ := List.mem_map.mp hev
    exact ⟨rfl, rfl, i, List.mem_range.mp hi, rfl⟩
  have hnonneg : ∀ ev ∈ (List.range k).map (fun i : Nat =>
      mkProgress m nodeId (((i : ℚ) + 1) * q) "running" msgMid),
      (0 : ℚ) ≤ ev.progress := by
    intro ev hev
    obtain ⟨-, -, i, -, hp⟩ := hmid ev hev
    rw [hp]
    have h1 : (0 : ℚ) ≤ (i : ℚ) + 1 := by positivity
    exact mul_nonneg h1 hq.le
  have hle1 : ∀ ev ∈ (List.range k).map (fun i : Nat =>
      mkProgress m nodeId (((i : ℚ) + 1) * q) "running" msgMid),
      ev.progress ≤ 1 := by
    intro ev hev
    obtain ⟨-, -, i, hik, hp⟩ := hmid ev hev
    rw [hp]
    have h1 : ((i : ℚ) + 1) ≤ (k : ℚ) := by
      have h2 : (i : ℚ) + 1 = ((i + 1 : Nat) : ℚ) := by push_cast; ring
      rw [h2]
      exact_mod_cast hik
    have h3 := mul_le_mul_of_nonneg_right h1 hq.le
    rw [hkq] at h3
    exact h3
  refine ⟨rfl, ?_, ?_, ?_, ?_, ?_, ?_⟩
  · exact List.getLast?_concat _
  · rw [List.append_assoc, List.chain'_append]
    refine ⟨List.chain'_singleton _, ?_, ?_⟩
    · rw [List.chain'_append]
      refine ⟨?_, List.chain'_singleton _, ?_⟩
      · rw [List.chain'_map]
        cases k with
        | zero => exact List.chain'_nil
        | succ k2 =>
          rw [List.chain'_range_succ]
          intro j hj
          show (mkProgress m nodeId (((j : ℚ) + 1) * q) "running" msgMid).progress
            ≤ (mkProgress m nodeId ((((j + 1 : Nat) : ℚ) + 1) * q) "running" msgMid).progress
          show (((j : ℚ) + 1) * q) ≤ ((((j + 1 : Nat) : ℚ) + 1) * q)
          have h1 : ((j : ℚ) + 1) ≤ (((j + 1 : Nat) : ℚ) + 1) := by
            push_cast
            linarith
          exact mul_le_mul_of_nonneg_right h1 hq.le
      · intro x hx y hy
        have hx2 := List.mem_of_mem_getLast? hx
        have hy2 := List.mem_of_mem_head? hy
        have hy3 : y = mkProgress m nodeId 1 "completed"
            "Execution completed successfully" := List.mem_singleton.mp hy2
        rw [hy3]
        show x.progress ≤ (mkProgress m nodeId 1 "completed"
          "Execution completed successfully").progress
        show x.progress ≤ (1 : ℚ)
        exact hle1 x hx2
    · intro x hx y hy
      have hx2 : x = mkProgress m nodeId 0 "running" "Starting execution" := by
        have h3 := List.mem_of_mem_getLast? hx
        exact List.mem_singleton.mp h3
      have hy2 := List.mem_of_mem_head? hy
      rw [hx2]
      show (mkProgress m nodeId 0 "running" "Starting execution").progress ≤ y.progress
      show (0 : ℚ) ≤ y.progress
      rcases List.mem_append.mp hy2 with h | h
      · exact hnonneg y h
      · rw [List.mem_singleton.mp h]
        show (0 : ℚ) ≤ (1 : ℚ)
        norm_num
  · intro ev hev
    rcases List.mem_append.mp hev with h | h
    · rcases List.mem_append.mp h with h2 | h2
      · rw [List.mem_singleton.mp h2]
        rfl
      · exact (hmid ev h2).2.1
    · rw [List.mem_singleton.mp h]
      rfl
  · rw [List.dropLast_concat]
    apply List.filter_eq_nil_iff.mpr
    intro ev hev
    have hst : ev.status = "running" := by
      rcases List.mem_append.mp hev with h | h
      · rw [List.mem_singleton.mp h]
        rfl
      · exact (hmid ev h).1
    rw [hst]
    simp
  · intro i
    rw [List.filter_append, List.filter_append]
    have h1 : List.filter (fun ev => ev.status == "completed" && ev.nodeId == i)
        [mkProgress m nodeId 0 "running" "Starting execution"] = [] := by
      simp [mkProgress]
    have h2 : List.filter (fun ev => ev.status == "completed" && ev.nodeId == i)
        ((List.range k).map (fun j : Nat =>
          mkProgress m nodeId (((j : ℚ) + 1) * q) "running" msgMid)) = [] := by
      apply List.filter_eq_nil_iff.mpr
      intro ev hev
      have hst := (hmid ev hev).1
      rw [hst]
      simp
    rw [h1, h2]
    by_cases hni : nodeId = i
    · subst hni
      simp [mkProgress]
    · rw [if_neg hni]
      have h3 : List.filter (fun ev => ev.status == "completed" && ev.nodeId == i)
          [mkProgress m nodeId 1 "completed" "Execution completed successfully"]
          = [] := by
        simp [mkProgress, hni]
      rw [h3]
      rfl
  · rw [List.filter_append, List.filter_append]
    have h1 : List.filter (fun ev => ev.status == "completed")
        [mkProgress m nodeId 0 "running" "Starting execution"] = [] := by
      simp [mkProgress]
    have h2 : List.filter (fun ev => ev.status == "completed")
        ((List.range k).map (fun j : Nat =>
          mkProgress m nodeId (((j : ℚ) + 1) * q) "running" msgMid)) = [] := by
      apply List.filter_eq_nil_iff.mpr
      intro ev hev
      have hst := (hmid ev hev).1
      rw [hst]
      simp
    rw [h1, h2]
    simp [mkProgress]

/-- C7: for any node found in the store, its `ExecuteNode` event
sequence begins with a `running` event at progress 0, has non-decreasing
progress values throughout, ends with a final `completed` event at
progress exactly 1, carries the node's id on every event, and contains
no `completed` event other than the last one — covering the `Conv2D`,
`MaxPool` and generic fallback schedules alike. -/
theorem C7_progress_trace (m : AIModel) (nodeId : Int) (node : AINode)
    (hfind : m.nodes.find? (fun n => n.id == nodeId) = some node) :
    (executeNode m nodeId).head?
        = some (mkProgress m nodeId 0 "running" "Starting execution")
    ∧ (executeNode m nodeId).getLast?
        = some (mkProgress m nodeId 1 "completed" "Execution completed successfully")
    ∧ List.Chain' (fun a b => a.progress ≤ b.progress) (executeNode m nodeId)
    ∧ (∀ ev ∈ executeNode m nodeId, ev.nodeId = nodeId)
    ∧ (executeNode m nodeId).dropLast.filter
        (fun ev => ev.status == "completed") = []
    ∧ (∀ i : Int, ((executeNode m nodeId).filter
        (fun ev => ev.status == "completed" && ev.nodeId == i)).length
          = if nodeId = i then 1 else 0)
    ∧ ((executeNode m nodeId).filter
        (fun ev => ev.status == "completed")).length = 1 := by
  unfold executeNode
  rw [hfind]
  dsimp only
  by_cases h1 : (node.type == "Conv2D") = true
  · rw [if_pos h1]
    exact schedTrace_spec m nodeId 10 (1/10) "Processing convolution layer" _
      (by norm_num) (by norm_num) rfl
  · rw [if_neg h1]
    by_cases h2 : (node.type == "MaxPool") = true
    · rw [if_pos h2]
      exact schedTrace_spec m nodeId 5 (1/5) "Processing pooling layer" _
        (by norm_num) (by norm_num) rfl
    · rw [if_neg h2]
      exact schedTrace_spec m nodeId 8 (1/8) ("Processing " ++ node.type) _
        (by norm_num) (by norm_num) rfl

/-- Witness for C7 on a concrete generic-schedule node. -/
theorem C7_progress_trace_witness :
    (executeNode mCycle 1).head?
        = some (mkProgress mCycle 1 0 "running" "Starting execution")
    ∧ (executeNode mCycle 1).getLast?
        = some (mkProgress mCycle 1 1 "completed" "Execution completed successfully")
    ∧ List.Chain' (fun a b => a.progress ≤ b.progress) (executeNode mCycle 1)
    ∧ ((executeNode mCycle 1).filter
        (fun ev => ev.status == "completed")).length = 1 := by
  have h := C7_progress_trace mCycle 1 cnA (by decide)
  exact ⟨h.1, h.2.1, h.2.2.1, h.2.2.2.2.2.2⟩

/-! ### C1: acyclic runs execute every node exactly once.
First, the indegree map in node-keyed normal form. -/

theorem alookup_rep_mem (ns : List Int) (g : Int → Int) (k : Int)
    (hk : k ∈ ns) : alookup k (indegRep ns g) = some (g k) := by
  induction ns with
  | nil => cases hk
  | cons a t ih =>
    show alookup k ((a, g a) :: indegRep t g) = some (g k)
    unfold alookup
    by_cases hak : a = k
    · subst hak
      rw [if_pos (beq_self_eq_true a)]
    · rw [if_neg (by simp [hak])]
      exact ih (by rcases List.mem_cons.mp hk with h | h
                   · exact absurd h.symm hak
                   · exact h)

theorem alookup_rep_not_mem (ns : List Int) (g : Int → Int) (k : Int)
    (hk : k ∉ ns) : alookup k (indegRep ns g) = none := by
  induction ns with
  | nil => rfl
  | cons a t ih =>
    show alookup k ((a, g a) :: indegRep t g) = none
    unfold alookup
    rw [if_neg (by simp; intro h; exact hk (h ▸ List.mem_cons_self a t))]
    exact ih (fun h => hk (List.mem_cons_of_mem a h))

theorem aset_rep (ns : List Int) (g : Int → Int) (k v : Int)
    (hnd : ns.Nodup) (hk : k ∈ ns) :
    aset k v (indegRep ns g) = indegRep ns (fun i => if i = k then v else g i) := by
  induction ns with
  | nil => cases hk
  | cons a t ih =>
    obtain ⟨hat, htnd⟩ := List.nodup_cons.mp hnd
    show aset k v ((a, g a) :: indegRep t g) = _
    unfold aset
    by_cases hak : a = k
    · subst hak
      rw [if_pos (beq_self_eq_true a)]
      show (a, v) :: indegRep t g
        = (a, if a = a then v else g a) :: indegRep t (fun i => if i = a then v else g i)
      rw [if_pos rfl]
      have ht : indegRep t g = indegRep t (fun i => if i = a then v else g i) := by
        apply List.map_congr_left
        intro x hx
        dsimp only
        rw [if_neg (by intro he; exact hat (he ▸ hx))]
      rw [ht]
    · rw [if_neg (by simp [hak])]
      have hkt : k ∈ t := by
        rcases List.mem_cons.mp hk with h | h
        · exact absurd h.symm hak
        · exact h
      show (a, g a) :: aset k v (indegRep t g)
        = (a, if a = k then v else g a) :: indegRep t (fun i => if i = k then v else g i)
      rw [if_neg hak, ih htnd hkt]

theorem incrKey_rep (ns : List Int) (g : Int → Int) (k : Int)
    (hnd : ns.Nodup) (hk : k ∈ ns) :
    incrKey k (indegRep ns g) = indegRep ns (fun i => if i = k then g i + 1 else g i) := by
  induction ns with
  | nil => cases hk
  | cons a t ih =>
    obtain ⟨hat, htnd⟩ := List.nodup_cons.mp hnd
    show incrKey k ((a, g a) :: indegRep t g) = _
    unfold incrKey
    by_cases hak : a = k
    · subst hak
      rw [if_pos (beq_self_eq_true a)]
      show (a, g a + 1) :: indegRep t g
        = (a, if a = a then g a + 1 else g a)
            :: indegRep t (fun i => if i = a then g i + 1 else g i)
      rw [if_pos rfl]
      have ht : indegRep t g = indegRep t (fun i => if i = a then g i + 1 else g i) := by
        apply List.map_congr_left
        intro x hx
        dsimp only
        rw [if_neg (by intro he; exact hat (he ▸ hx))]
      rw [ht]
    · rw [if_neg (by simp [hak])]
      have hkt : k ∈ t := by
        rcases List.mem_cons.mp hk with h | h
        · exact absurd h.symm hak
        · exact h
      show (a, g a) :: incrKey k (indegRep t g)
        = (a, if a = k then g a + 1 else g a)
            :: indegRep t (fun i => if i = k then g i + 1 else g i)
      rw [if_neg hak, ih htnd hkt]

theorem ensureKey_rep (ns : List Int) (g : Int → Int) (k : Int)
    (hk : k ∈ ns) : ensureKey k (indegRep ns g) = indegRep ns g := by
  unfold ensureKey
  rw [alookup_rep_mem ns g k hk]

theorem alookup_append (k : Int) (l1 l2 : List (Int × Int)) :
    alookup k (l1 ++ l2) = match alookup k l1 with
      | some v => some v
      | none => alookup k l2 := by
  induction l1 with
  | nil => rfl
  | cons p t ih =>
    obtain ⟨a, b⟩ := p
    have h1 : ∀ (l : List (Int × Int)),
        alookup k ((a, b) :: l) = if a == k then some b else alookup k l :=
      fun l => rfl
    show alookup k ((a, b) :: (t ++ l2))
      = match alookup k ((a, b) :: t) with
        | some v => some v
        | none => alookup k l2
    rw [h1, h1]
    cases hak : (a == k) with
    | true => rfl
    | false =>
      simp only [Bool.false_eq_true, if_false]
      exact ih

theorem aset_append_of_none (k v : Int) (acc : List (Int × Int))
    (h : alookup k acc = none) : aset k v acc = acc ++ [(k, v)] := by
  induction acc with
  | nil => rfl
  | cons p t ih =>
    obtain ⟨a, b⟩ := p
    unfold alookup at h
    unfold aset
    cases hak : (a == k) with
    | true => rw [hak] at h; cases h
    | false =>
      rw [hak] at h
      rw [ih h]
      rfl

theorem initFold_rep (ns : List Int) (hnd : ns.Nodup) :
    ∀ acc, (∀ i ∈ ns, alookup i acc = none) →
      ns.foldl (fun a i => aset i 0 a) acc = acc ++ indegRep ns (fun _ => 0) := by
  induction ns with
  | nil =>
    intro acc hacc
    show acc = acc ++ []
    rw [List.append_nil]
  | cons a t ih =>
    intro acc hacc
    obtain ⟨hat, htnd⟩ := List.nodup_cons.mp hnd
    show t.foldl (fun a i => aset i 0 a) (aset a 0 acc) = _
    rw [aset_append_of_none a 0 acc (hacc a (List.mem_cons_self a t))]
    rw [ih htnd (acc ++ [(a, 0)]) ?hnone]
    case hnone =>
      intro i hi
      rw [alookup_append]
      rw [hacc i (List.mem_cons_of_mem a hi)]
      show alookup i [(a, 0)] = none
      unfold alookup
      rw [if_neg (by simp; intro he; exact hat (he ▸ hi))]
      rfl
    rw [List.append_assoc]
    rfl

theorem pairFold_rep (ns : List Int) (hnd : ns.Nodup) :
    ∀ (ps : List (Int × Int)) (g : Int → Int) (adj : List (Int × List Int)),
      (∀ pr ∈ ps, pr.1 ∈ ns ∧ pr.2 ∈ ns) →
      ps.foldl pairStep (indegRep ns g, adj)
        = (indegRep ns (fun b =>
              g b + ((ps.filter (fun pr => pr.2 == b)).length : Int)),
           ps.foldl (fun a pr => apushAdj pr.1 pr.2 a) adj) := by
  intro ps
  induction ps with
  | nil =>
    intro g adj hcl
    have hfun : (fun b => g b
        + (((List.filter (fun pr => pr.2 == b) ([] : List (Int × Int))).length : Nat) : Int))
        = fun b => g b := funext (fun b => by simp)
    rw [hfun]
    rfl
  | cons pr0 t ih =>
    intro g adj hcl
    obtain ⟨a, b⟩ := pr0
    obtain ⟨ha, hb⟩ := hcl (a, b) (List.mem_cons_self _ t)
    have hstep : pairStep (indegRep ns g, adj) (a, b)
        = (indegRep ns (fun i => if i = b then g i + 1 else g i), apushAdj a b adj) := by
      unfold pairStep
      dsimp only
      rw [ensureKey_rep ns g b hb, ensureKey_rep ns g a ha, incrKey_rep ns g b hnd hb]
    show t.foldl pairStep (pairStep (indegRep ns g, adj) (a, b)) = _
    rw [hstep]
    rw [ih (fun i => if i = b then g i + 1 else g i) (apushAdj a b adj)
      (fun pr hpr => hcl pr (List.mem_cons_of_mem _ hpr))]
    have hfun : (fun x => (if x = b then g x + 1 else g x)
          + ((List.filter (fun pr => pr.2 == x) t).length : Int))
        = fun x => g x
          + ((List.filter (fun pr => pr.2 == x) ((a, b) :: t)).length : Int) := by
      funext x
      rw [List.filter_cons]
      by_cases hxb : x = b
      · subst hxb
        rw [if_pos rfl]
        have hc : (((a, x) : Int × Int).2 == x) = true := by simp
        rw [if_pos hc]
        show g x + 1 + ((List.filter (fun pr => pr.2 == x) t).length : Int)
          = g x + (((List.filter (fun pr => pr.2 == x) t).length + 1 : Nat) : Int)
        push_cast
        ring
      · rw [if_neg hxb]
        have hc : (((a, b) : Int × Int).2 == x) = false := by simp [Ne.symm hxb]
        rw [hc]
        rfl
    rw [hfun]
    rfl

theorem schedFold_eq_pairFold (m : AIModel) :
    ∀ (es : List Edge) (acc : List (Int × Int) × List (Int × List Int)),
      es.foldl (schedStep m) acc = (es.filterMap (pairOf m)).foldl pairStep acc := by
  intro es
  induction es with
  | nil => intro acc; rfl
  | cons e t ih =>
    intro acc
    cases hf : m.getPort e.fromPortId with
    | none =>
      have h1 : schedStep m acc e = acc := by unfold schedStep; rw [hf]
      have h2 : pairOf m e = none := by unfold pairOf; rw [hf]
      rw [List.foldl_cons, h1, List.filterMap_cons, h2]
      exact ih acc
    | some fp =>
      cases ht : m.getPort e.toPortId with
      | none =>
        have h1 : schedStep m acc e = acc := by unfold schedStep; rw [hf, ht]
        have h2 : pairOf m e = none := by unfold pairOf; rw [hf, ht]
        rw [List.foldl_cons, h1, List.filterMap_cons, h2]
        exact ih acc
      | some tp =>
        have h1 : schedStep m acc e = pairStep acc (fp.nodeId, tp.nodeId) := by
          unfold schedStep pairStep
          rw [hf, ht]
        have h2 : pairOf m e = some (fp.nodeId, tp.nodeId) := by
          unfold pairOf
          rw [hf, ht]
        rw [List.foldl_cons, h1, List.filterMap_cons, h2, List.foldl_cons]
        exact ih (pairStep acc (fp.nodeId, tp.nodeId))

theorem incount_nil (ps : List (Int × Int)) (b : Int) :
    incount ps b [] = (ps.filter (fun pr => pr.2 == b)).length := by
  unfold incount
  congr 1
  apply List.filter_congr
  intro pr hpr
  simp

theorem buildSchedGraph_eq (m : AIModel)
    (hnd : (m.nodes.map AINode.id).Nodup)
    (hclosed : ∀ pr ∈ edgePairs m,
      pr.1 ∈ m.nodes.map AINode.id ∧ pr.2 ∈ m.nodes.map AINode.id) :
    buildSchedGraph m
      = (indegRep (m.nodes.map AINode.id)
            (fun b => (incount (edgePairs m) b [] : Int)),
         (edgePairs m).foldl (fun a pr => apushAdj pr.1 pr.2 a) []) := by
  unfold buildSchedGraph
  have hmapfold : (m.nodes.map AINode.id).foldl (fun a i => aset i 0 a) []
      = m.nodes.foldl (fun acc n => aset n.id 0 acc) [] :=
    List.foldl_map AINode.id (fun a i => aset i 0 a) m.nodes []
  have hinit : m.nodes.foldl (fun acc n => aset n.id 0 acc) []
      = indegRep (m.nodes.map AINode.id) (fun _ => 0) := by
    rw [← hmapfold]
    rw [initFold_rep (m.nodes.map AINode.id) hnd [] (fun i hi => rfl)]
    rfl
  rw [hinit, schedFold_eq_pairFold]
  have hEP : m.edges.filterMap (pairOf m) = edgePairs m := rfl
  rw [hEP]
  rw [pairFold_rep (m.nodes.map AINode.id) hnd (edgePairs m) (fun _ => 0) [] hclosed]
  have hfun : (fun b => (0 : Int)
        + ((List.filter (fun pr => pr.2 == b) (edgePairs m)).length : Int))
      = fun b => (incount (edgePairs m) b [] : Int) := by
    funext b
    rw [incount_nil]
    ring
  rw [hfun]

theorem lookupAdjD_cons (k a : Int) (l : List Int) (t : List (Int × List Int)) :
    lookupAdjD k ((a, l) :: t) = if a == k then l else lookupAdjD k t := by
  unfold lookupAdjD
  have h1 : alookupAdj k ((a, l) :: t) = if a == k then some l else alookupAdj k t := rfl
  rw [h1]
  cases hak : (a == k)
  · simp only [Bool.false_eq_true, if_false]
  · simp only [if_true]
    rfl

theorem lookupAdjD_apush_self (k v : Int) :
    ∀ adj, lookupAdjD k (apushAdj k v adj) = lookupAdjD k adj ++ [v] := by
  intro adj
  induction adj with
  | nil =>
    show lookupAdjD k [(k, [v])] = lookupAdjD k [] ++ [v]
    rw [lookupAdjD_cons, if_pos (beq_self_eq_true k)]
    rfl
  | cons p t ih =>
    obtain ⟨a, l⟩ := p
    show lookupAdjD k (if a == k then (a, l ++ [v]) :: t else (a, l) :: apushAdj k v t)
      = lookupAdjD k ((a, l) :: t) ++ [v]
    cases hak : (a == k)
    · simp only [Bool.false_eq_true, if_false]
      rw [lookupAdjD_cons, lookupAdjD_cons, hak]
      simp only [Bool.false_eq_true, if_false]
      exact ih
    · simp only [if_true]
      rw [lookupAdjD_cons, lookupAdjD_cons, hak]
      simp only [if_true]

theorem lookupAdjD_apush_other (k v j : Int) (hjk : (k == j) = false) :
    ∀ adj, lookupAdjD j (apushAdj k v adj) = lookupAdjD j adj := by
  intro adj
  induction adj with
  | nil =>
    show lookupAdjD j [(k, [v])] = lookupAdjD j []
    rw [lookupAdjD_cons, hjk]
    simp only [Bool.false_eq_true, if_false]
  | cons p t ih =>
    obtain ⟨a, l⟩ := p
    show lookupAdjD j (if a == k then (a, l ++ [v]) :: t else (a, l) :: apushAdj k v t)
      = lookupAdjD j ((a, l) :: t)
    cases hak : (a == k)
    · simp only [Bool.false_eq_true, if_false]
      rw [lookupAdjD_cons, lookupAdjD_cons]
      cases haj : (a == j)
      · simp only [Bool.false_eq_true, if_false]
        exact ih
      · simp only [if_true]
    · simp only [if_true]
      have haj : (a == j) = false := by
        have h1 : a = k := beq_iff_eq.mp hak
        rw [h1]
        exact hjk
      rw [lookupAdjD_cons, lookupAdjD_cons, haj]
      simp only [Bool.false_eq_true, if_false]

theorem psuccs_cons (a b k : Int) (t : List (Int × Int)) :
    psuccs ((a, b) :: t) k = if a == k then b :: psuccs t k else psuccs t k := by
  unfold psuccs
  rw [List.filter_cons]
  cases hak : (a == k)
  · simp only [Bool.false_eq_true, if_false]
  · simp only [if_true]
    rfl

theorem lookupAdjD_buildAdj (k : Int) :
    ∀ (ps : List (Int × Int)) (adj : List (Int × List Int)),
      lookupAdjD k (ps.foldl (fun a pr => apushAdj pr.1 pr.2 a) adj)
        = lookupAdjD k adj ++ psuccs ps k := by
  intro ps
  induction ps with
  | nil =>
    intro adj
    show lookupAdjD k adj = lookupAdjD k adj ++ psuccs [] k
    rw [show psuccs [] k = [] from rfl, List.append_nil]
  | cons pr t ih =>
    intro adj
    obtain ⟨a, b⟩ := pr
    show lookupAdjD k (t.foldl (fun a pr => apushAdj pr.1 pr.2 a) (apushAdj a b adj))
      = lookupAdjD k adj ++ psuccs ((a, b) :: t) k
    rw [ih, psuccs_cons]
    cases hak : (a == k)
    · rw [lookupAdjD_apush_other a b k hak]
      simp only [Bool.false_eq_true, if_false]
    · have h1 : a = k := beq_iff_eq.mp hak
      subst h1
      rw [lookupAdjD_apush_self a b]
      simp only [if_true]
      rw [List.append_assoc]
      rfl

theorem processSuccs_eq_fold (st : RunState) (n : Int) :
    processSuccs st n = (lookupAdjD n st.adjacency).foldl decPush st := by
  unfold processSuccs lookupAdjD
  cases h : alookupAdj n st.adjacency with
  | none => rfl
  | some l => rfl

theorem decPushFold (ns : List Int) (hnd : ns.Nodup) :
    ∀ (L : List Int) (g : Int → Int) (st : RunState),
      st.indegree = indegRep ns g →
      (∀ b ∈ L, b ∈ ns) →
      (∀ b ∈ L, (L.count b : Int) ≤ g b) →
      (∀ b ∈ L, g b = (L.count b : Int) → b ∉ st.readyQueue) →
      st.readyQueue.Nodup →
      (L.foldl decPush st).indegree = indegRep ns (fun i => g i - (L.count i : Int))
      ∧ (∀ b, b ∈ (L.foldl decPush st).readyQueue
          ↔ b ∈ st.readyQueue ∨ (b ∈ L ∧ g b = (L.count b : Int)))
      ∧ (L.foldl decPush st).readyQueue.Nodup
      ∧ (L.foldl decPush st).adjacency = st.adjacency
      ∧ (L.foldl decPush st).remainingNodes = st.remainingNodes
      ∧ (L.foldl decPush st).executing = st.executing
      ∧ (L.foldl decPush st).events = st.events := by
  intro L
  induction L with
  | nil =>
    intro g st hind hmem hcount hnotin hq
    refine ⟨?_, ?_, hq, rfl, rfl, rfl, rfl⟩
    · have hfun : (fun i => g i - ((([] : List Int).count i : Nat) : Int)) = g :=
        funext (fun i => by simp)
      rw [hfun]
      exact hind
    · intro b
      simp
  | cons c T ih =>
    intro g st hind hmem hcount hnotin hq
    have hcns : c ∈ ns := hmem c (List.mem_cons_self c T)
    have hlk : alookup c st.indegree = some (g c) := by
      rw [hind]
      exact alookup_rep_mem ns g c hcns
    have hccount : ((c :: T).count c : Int) = (T.count c : Int) + 1 := by
      rw [List.count_cons_self]
      push_cast
      ring
    by_cases hpush : g c - 1 = 0
    · -- the decrement reaches zero: c is pushed
      have hgc1 : g c = 1 := by omega
      have hTc0 : T.count c = 0 := by
        have h1 := hcount c (List.mem_cons_self c T)
        rw [hccount, hgc1] at h1
        omega
      have hcT : c ∉ T := by
        intro habs
        have h2 := List.count_pos_iff.mpr habs
        omega
      have hcq : c ∉ st.readyQueue := by
        apply hnotin c (List.mem_cons_self c T)
        rw [hccount]
        omega
      have hdec : decPush st c = { st with
          indegree := indegRep ns (fun i => if i = c then g c - 1 else g i)
          readyQueue := st.readyQueue ++ [c] } := by
        unfold decPush
        rw [hlk]
        dsimp only
        rw [if_pos (beq_iff_eq.mpr hpush)]
        rw [hind, aset_rep ns g c (g c - 1) hnd hcns]
      have hc2 : ∀ b ∈ T, ((T.count b : Nat) : Int) ≤ if b = c then g c - 1 else g b := by
        intro b hb
        by_cases hbc : b = c
        · subst hbc
          rw [if_pos rfl]
          have h2 := List.count_pos_iff.mpr hb
          omega
        · rw [if_neg hbc]
          have h1 := hcount b (List.mem_cons_of_mem c hb)
          rw [List.count_cons_of_ne hbc] at h1
          exact h1
      have hn2 : ∀ b ∈ T, (if b = c then g c - 1 else g b) = ((T.count b : Nat) : Int)
          → b ∉ st.readyQueue ++ [c] := by
        intro b hb hgb
        by_cases hbc : b = c
        · subst hbc
          exact absurd hb hcT
        · rw [if_neg hbc] at hgb
          have h1 : b ∉ st.readyQueue := by
            apply hnotin b (List.mem_cons_of_mem c hb)
            rw [List.count_cons_of_ne hbc]
            exact hgb
          intro habs
          rcases List.mem_append.mp habs with h | h
          · exact h1 h
          · exact hbc (List.mem_singleton.mp h)
      have hq2 : (st.readyQueue ++ [c]).Nodup := by
        simp only [List.nodup_append, List.nodup_cons, List.not_mem_nil,
          not_false_iff, List.nodup_nil, and_true, true_and]
        refine ⟨hq, ?_⟩
        intro x hx hx2
        rw [List.mem_singleton.mp hx2] at hx
        exact hcq hx
      rw [List.foldl_cons, hdec]
      obtain ⟨i1, i2, i3, i4, i5, i6, i7⟩ :=
        ih (fun i => if i = c then g c - 1 else g i)
          { st with
            indegree := indegRep ns (fun i => if i = c then g c - 1 else g i)
            readyQueue := st.readyQueue ++ [c] }
          rfl
          (fun b hb => hmem b (List.mem_cons_of_mem c hb))
          hc2 hn2 hq2
      refine ⟨?_, ?_, i3, i4, i5, i6, i7⟩
      · rw [i1]
        congr 1
        funext i
        by_cases hic : i = c
        · subst hic
          rw [if_pos rfl, hccount, hTc0]
          push_cast
          ring
        · rw [if_neg hic, List.count_cons_of_ne hic]
      · intro b
        rw [i2 b]
        constructor
        · rintro (h | ⟨hbT, hgb⟩)
          · rcases List.mem_append.mp h with h2 | h2
            · exact Or.inl h2
            · have hbc : b = c := List.mem_singleton.mp h2
              subst hbc
              refine Or.inr ⟨List.mem_cons_self b T, ?_⟩
              rw [hccount]
              omega
          · have hbc : b ≠ c := by
              intro habs
              subst habs
              exact hcT hbT
            rw [if_neg hbc] at hgb
            refine Or.inr ⟨List.mem_cons_of_mem c hbT, ?_⟩
            rw [List.count_cons_of_ne hbc]
            exact hgb
        · rintro (h | ⟨hbL, hgb⟩)
          · exact Or.inl (List.mem_append.mpr (Or.inl h))
          · by_cases hbc : b = c
            · subst hbc
              exact Or.inl (List.mem_append.mpr (Or.inr (List.mem_singleton.mpr rfl)))
            · rcases List.mem_cons.mp hbL with h2 | h2
              · exact absurd h2 hbc
              · refine Or.inr ⟨h2, ?_⟩
                rw [if_neg hbc]
                rw [List.count_cons_of_ne hbc] at hgb
                exact hgb
    · -- the decrement stays positive: nothing is pushed
      have hdec : decPush st c = { st with
          indegree := indegRep ns (fun i => if i = c then g c - 1 else g i) } := by
        unfold decPush
        rw [hlk]
        dsimp only
        rw [if_neg (by simp only [beq_iff_eq]; exact hpush)]
        rw [hind, aset_rep ns g c (g c - 1) hnd hcns]
      have hc2 : ∀ b ∈ T, ((T.count b : Nat) : Int) ≤ if b = c then g c - 1 else g b := by
        intro b hb
        by_cases hbc : b = c
        · subst hbc
          rw [if_pos rfl]
          have h1 := hcount b (List.mem_cons_self b T)
          rw [hccount] at h1
          omega
        · rw [if_neg hbc]
          have h1 := hcount b (List.mem_cons_of_mem c hb)
          rw [List.count_cons_of_ne hbc] at h1
          exact h1
      have hn2 : ∀ b ∈ T, (if b = c then g c - 1 else g b) = ((T.count b : Nat) : Int)
          → b ∉ st.readyQueue := by
        intro b hb hgb
        by_cases hbc : b = c
        · subst hbc
          rw [if_pos rfl] at hgb
          apply hnotin b (List.mem_cons_self b T)
          rw [hccount]
          omega
        · rw [if_neg hbc] at hgb
          apply hnotin b (List.mem_cons_of_mem c hb)
          rw [List.count_cons_of_ne hbc]
          exact hgb
      rw [List.foldl_cons, hdec]
      obtain ⟨i1, i2, i3, i4, i5, i6, i7⟩ :=
        ih (fun i => if i = c then g c - 1 else g i)
          { st with
            indegree := indegRep ns (fun i => if i = c then g c - 1 else g i) }
          rfl
          (fun b hb => hmem b (List.mem_cons_of_mem c hb))
          hc2 hn2 hq
      refine ⟨?_, ?_, i3, i4, i5, i6, i7⟩
      · rw [i1]
        congr 1
        funext i
        by_cases hic : i = c
        · subst hic
          rw [if_pos rfl, hccount]
          ring
        · rw [if_neg hic, List.count_cons_of_ne hic]
      · intro b
        rw [i2 b]
        constructor
        · rintro (h | ⟨hbT, hgb⟩)
          · exact Or.inl h
          · by_cases hbc : b = c
            · subst hbc
              rw [if_pos rfl] at hgb
              refine Or.inr ⟨List.mem_cons_self b T, ?_⟩
              rw [hccount]
              omega
            · rw [if_neg hbc] at hgb
              refine Or.inr ⟨List.mem_cons_of_mem c hbT, ?_⟩
              rw [List.count_cons_of_ne hbc]
              exact hgb
        · rintro (h | ⟨hbL, hgb⟩)
          · exact Or.inl h
          · by_cases hbc : b = c
            · subst hbc
              refine Or.inr ⟨?_, ?_⟩
              · by_cases hbT : b ∈ T
                · exact hbT
                · exfalso
                  have hTb0 : T.count b = 0 := by
                    rcases Nat.eq_zero_or_pos (T.count b) with h0 | h0
                    · exact h0
                    · exact absurd (List.count_pos_iff.mp h0) hbT
                  rw [hccount, hTb0] at hgb
                  omega
              · rw [if_pos rfl]
                rw [hccount] at hgb
                omega
            · rcases List.mem_cons.mp hbL with h2 | h2
              · exact absurd h2 hbc
              · refine Or.inr ⟨h2, ?_⟩
                rw [if_neg hbc]
                rw [List.count_cons_of_ne hbc] at hgb
                exact hgb

theorem mem_of_contains {l : List Int} {a : Int} (h : l.contains a = true) : a ∈ l := by
  induction l with
  | nil => cases h
  | cons b t ih =>
    rw [contains_cons_eq] at h
    simp only [Bool.or_eq_true] at h
    rcases h with h | h
    · rw [beq_iff_eq.mp h]
      exact List.mem_cons_self b t
    · exact List.mem_cons_of_mem b (ih h)

theorem contains_eq_false_of_not_mem {l : List Int} {a : Int} (h : a ∉ l) :
    l.contains a = false := by
  cases hc : l.contains a
  · rfl
  · exact absurd (mem_of_contains hc) h

theorem contains_append_singleton (d : List Int) (n a : Int) :
    (d ++ [n]).contains a = (d.contains a || (a == n)) := by
  induction d with
  | nil =>
    show ([n] : List Int).contains a = (false || (a == n))
    rw [Bool.false_or, contains_cons_eq]
    show (a == n || false) = (a == n)
    rw [Bool.or_false]
  | cons b t ih =>
    show ((b :: (t ++ [n])) : List Int).contains a = _
    rw [contains_cons_eq, ih, contains_cons_eq, Bool.or_assoc]

theorem incount_append_one (ps : List (Int × Int)) (b n : Int) (d : List Int)
    (hn : n ∉ d) :
    incount ps b d = incount ps b (d ++ [n]) + (psuccs ps n).count b := by
  induction ps with
  | nil => rfl
  | cons pr t ih =>
    obtain ⟨a, x⟩ := pr
    unfold incount at ih ⊢
    rw [List.filter_cons, List.filter_cons, psuccs_cons, contains_append_singleton]
    by_cases han : (a == n) = true
    · rw [if_pos han, List.count_cons]
      have hda : d.contains a = false := by
        apply contains_eq_false_of_not_mem
        rw [beq_iff_eq.mp han]
        exact hn
      have hc2 : (x == b && !(d.contains a || (a == n))) = false := by
        rw [han, Bool.or_true, Bool.not_true, Bool.and_false]
      rw [if_neg (ne_true_of_eq_false hc2)]
      by_cases hxb : (x == b) = true
      · have hc1 : (x == b && !(d.contains a)) = true := by
          rw [hxb, hda, Bool.not_false, Bool.true_and]
        rw [if_pos hc1, if_pos hxb, List.length_cons]
        omega
      · have hc1 : (x == b && !(d.contains a)) = false := by
          rw [eq_false_of_ne_true hxb, Bool.false_and]
        rw [if_neg (ne_true_of_eq_false hc1), if_neg hxb]
        omega
    · have han2 : (a == n) = false := eq_false_of_ne_true han
      rw [if_neg han, han2, Bool.or_false]
      by_cases hc1 : (x == b && !(d.contains a)) = true
      · rw [if_pos hc1, if_pos hc1, List.length_cons, List.length_cons]
        omega
      · rw [if_neg hc1, if_neg hc1]
        omega

theorem psuccs_count_le (ps : List (Int × Int)) (b n : Int) (d : List Int)
    (hn : n ∉ d) : (psuccs ps n).count b ≤ incount ps b d := by
  have h := incount_append_one ps b n d hn
  omega

theorem psuccs_mem_pair (ps : List (Int × Int)) (n b : Int)
    (h : b ∈ psuccs ps n) : ∃ pr ∈ ps, pr.1 = n ∧ pr.2 = b := by
  unfold psuccs at h
  obtain ⟨pr, hpr, hsnd⟩ := List.mem_map.mp h
  have h2 := List.mem_filter.mp hpr
  exact ⟨pr, h2.1, beq_iff_eq.mp h2.2, hsnd⟩

theorem incount_pos_pair (ps : List (Int × Int)) (b : Int) (d : List Int)
    (h : 0 < incount ps b d) : ∃ pr ∈ ps, pr.2 = b ∧ pr.1 ∉ d := by
  unfold incount at h
  have hne : ps.filter (fun pr => pr.2 == b && !(d.contains pr.1)) ≠ [] := by
    intro habs
    rw [habs] at h
    cases h
  obtain ⟨pr, hpr⟩ := List.exists_mem_of_ne_nil _ hne
  have h2 := List.mem_filter.mp hpr
  simp only [Bool.and_eq_true, Bool.not_eq_true'] at h2
  refine ⟨pr, h2.1, beq_iff_eq.mp h2.2.1, ?_⟩
  intro habs
  rw [contains_of_mem habs] at h2
  cases h2.2.2

theorem nodup_subset_length (l1 l2 : List Int) (hnd : l1.Nodup)
    (hsub : ∀ x ∈ l1, x ∈ l2) : l1.length ≤ l2.length := by
  calc l1.length = l1.toFinset.card := (List.toFinset_card_of_nodup hnd).symm
    _ ≤ l2.toFinset.card := Finset.card_le_card
        (fun x hx => List.mem_toFinset.mpr (hsub x (List.mem_toFinset.mp hx)))
    _ ≤ l2.length := l2.toFinset_card_le

theorem nodup_subset_full (l1 l2 : List Int) (h1 : l1.Nodup) (h2 : l2.Nodup)
    (hsub : ∀ x ∈ l1, x ∈ l2) (hlen : l2.length ≤ l1.length) :
    ∀ x ∈ l2, x ∈ l1 := by
  have hcard : l2.toFinset.card ≤ l1.toFinset.card := by
    rw [List.toFinset_card_of_nodup h1, List.toFinset_card_of_nodup h2]
    exact hlen
  have hf : l1.toFinset = l2.toFinset := Finset.eq_of_subset_of_card_le
    (fun x hx => List.mem_toFinset.mpr (hsub x (List.mem_toFinset.mp hx))) hcard
  intro x hx
  have hx2 : x ∈ l2.toFinset := List.mem_toFinset.mpr hx
  rw [← hf] at hx2
  exact List.mem_toFinset.mp hx2

theorem existsMinBy (f : Int → Nat) :
    ∀ (l : List Int) (a : Int), ∃ u ∈ a :: l, ∀ v ∈ a :: l, f u ≤ f v := by
  intro l
  induction l with
  | nil =>
    intro a
    refine ⟨a, List.mem_cons_self a [], ?_⟩
    intro v hv
    rw [List.mem_singleton.mp hv]
  | cons b t ih =>
    intro a
    obtain ⟨u, hu, hmin⟩ := ih b
    by_cases hab : f a ≤ f u
    · refine ⟨a, List.mem_cons_self a (b :: t), ?_⟩
      intro v hv
      rcases List.mem_cons.mp hv with h | h
      · rw [h]
      · exact le_trans hab (hmin v h)
    · refine ⟨u, List.mem_cons_of_mem a hu, ?_⟩
      intro v hv
      rcases List.mem_cons.mp hv with h | h
      · rw [h]
        exact le_of_not_le hab
      · exact hmin v h

/-- The loop invariant tying a run state to the set `done` of node ids
already popped and executed: the indegree map holds the count of
incoming pairs from not-yet-finished sources, the ready queue holds
exactly the unfinished zero-count nodes, and the events are the
concatenated per-node traces in pop order. -/
def SchedInv (m : AIModel) (ns : List Int) (ps : List (Int × Int))
    (done : List Int) (s : RunState) : Prop :=
  done.Nodup
  ∧ (∀ d ∈ done, d ∈ ns)
  ∧ (∀ d ∈ done, incount ps d done = 0)
  ∧ s.indegree = indegRep ns (fun i => ((incount ps i done : Nat) : Int))
  ∧ s.adjacency = ps.foldl (fun a pr => apushAdj pr.1 pr.2 a) []
  ∧ s.readyQueue.Nodup
  ∧ (∀ b, b ∈ s.readyQueue ↔ b ∈ ns ∧ b ∉ done ∧ incount ps b done = 0)
  ∧ s.remainingNodes = (ns.length : Int) - (done.length : Int)
  ∧ (done.length < ns.length → s.executing = true)
  ∧ s.events = done.flatMap (fun d => executeNode m d)

theorem execOnce_eq (m : AIModel) (s : RunState) (n : Int) (rest : List Int) :
    execOnce m s n rest
      = (if (processSuccs { s with
              readyQueue := rest
              events := s.events ++ executeNode m n } n).remainingNodes - 1 ≤ 0
         then { processSuccs { s with
                  readyQueue := rest
                  events := s.events ++ executeNode m n } n with
                remainingNodes := (processSuccs { s with
                  readyQueue := rest
                  events := s.events ++ executeNode m n } n).remainingNodes - 1
                executing := false }
         else { processSuccs { s with
                  readyQueue := rest
                  events := s.events ++ executeNode m n } n with
                remainingNodes := (processSuccs { s with
                  readyQueue := rest
                  events := s.events ++ executeNode m n } n).remainingNodes - 1 }) := rfl

theorem execOnce_inv (m : AIModel) (ns : List Int) (ps : List (Int × Int))
    (hnd : ns.Nodup)
    (hclosed : ∀ pr ∈ ps, pr.1 ∈ ns ∧ pr.2 ∈ ns)
    (rank : Int → Nat)
    (hrank : ∀ pr ∈ ps, rank pr.1 < rank pr.2)
    (done : List Int) (s : RunState) (n : Int) (rest : List Int)
    (hinv : SchedInv m ns ps done s)
    (hq : s.readyQueue = n :: rest) :
    SchedInv m ns ps (done ++ [n]) (execOnce m s n rest) := by
  obtain ⟨hdn, hds, hd0, hind, hadj, hqn, hqiff, hrem, hex, hev⟩ := hinv
  have hnq : n ∈ s.readyQueue := by
    rw [hq]
    exact List.mem_cons_self n rest
  obtain ⟨hnns, hndone, hn0⟩ := (hqiff n).mp hnq
  have hnrest : n ∉ rest := by
    have h2 := hqn
    rw [hq] at h2
    exact (List.nodup_cons.mp h2).1
  have hrestnd : rest.Nodup := by
    have h2 := hqn
    rw [hq] at h2
    exact (List.nodup_cons.mp h2).2
  have hmono : ∀ b, incount ps b (done ++ [n]) ≤ incount ps b done := by
    intro b
    have h2 := incount_append_one ps b n done hndone
    omega
  have hdn2 : (done ++ [n]).Nodup := by
    simp only [List.nodup_append, List.nodup_cons, List.not_mem_nil,
      not_false_iff, List.nodup_nil, and_true, true_and]
    refine ⟨hdn, ?_⟩
    intro x hx hx2
    exact hndone ((List.mem_singleton.mp hx2) ▸ hx)
  have hds2 : ∀ d ∈ done ++ [n], d ∈ ns := by
    intro d hd
    rcases List.mem_append.mp hd with h | h
    · exact hds d h
    · exact (List.mem_singleton.mp h) ▸ hnns
  have hd02 : ∀ d ∈ done ++ [n], incount ps d (done ++ [n]) = 0 := by
    intro d hd
    rcases List.mem_append.mp hd with h | h
    · have h2 := hd0 d h
      have h3 := hmono d
      omega
    · rw [List.mem_singleton.mp h]
      have h3 := hmono n
      omega
  rw [execOnce_eq]
  generalize hgen : ({ s with
    readyQueue := rest
    events := s.events ++ executeNode m n } : RunState) = s1
  have hs1ind : s1.indegree
      = indegRep ns (fun i => ((incount ps i done : Nat) : Int)) := by
    rw [← hgen]
    exact hind
  have hs1q : s1.readyQueue = rest := by rw [← hgen]
  have hs1adj : s1.adjacency = s.adjacency := by rw [← hgen]
  have hs1rem : s1.remainingNodes = s.remainingNodes := by rw [← hgen]
  have hs1ex : s1.executing = s.executing := by rw [← hgen]
  have hs1ev : s1.events = s.events ++ executeNode m n := by rw [← hgen]
  have hmemL : ∀ b ∈ psuccs ps n, b ∈ ns := by
    intro b hb
    obtain ⟨pr, hpr, h1, h2⟩ := psuccs_mem_pair ps n b hb
    exact h2 ▸ (hclosed pr hpr).2
  have hcountL : ∀ b ∈ psuccs ps n,
      (((psuccs ps n).count b : Nat) : Int) ≤ ((incount ps b done : Nat) : Int) := by
    intro b hb
    have h2 := psuccs_count_le ps b n done hndone
    exact_mod_cast h2
  have hnotinL : ∀ b ∈ psuccs ps n,
      ((incount ps b done : Nat) : Int) = (((psuccs ps n).count b : Nat) : Int)
        → b ∉ s1.readyQueue := by
    intro b hb hgb
    rw [hs1q]
    intro habs
    have hbq : b ∈ s.readyQueue := by
      rw [hq]
      exact List.mem_cons_of_mem n habs
    have h0 := ((hqiff b).mp hbq).2.2
    have hpos := List.count_pos_iff.mpr hb
    omega
  have hq1nd : s1.readyQueue.Nodup := by
    rw [hs1q]
    exact hrestnd
  obtain ⟨j1, j2, j3, j4, j5, j6, j7⟩ := decPushFold ns hnd (psuccs ps n)
    (fun i => ((incount ps i done : Nat) : Int)) s1 hs1ind hmemL hcountL hnotinL hq1nd
  have hps2 : processSuccs s1 n = (psuccs ps n).foldl decPush s1 := by
    rw [processSuccs_eq_fold]
    have hlook : lookupAdjD n s1.adjacency = psuccs ps n := by
      rw [hs1adj, hadj, lookupAdjD_buildAdj]
      rfl
    rw [hlook]
  have hF1 : (processSuccs s1 n).indegree
      = indegRep ns (fun i => ((incount ps i (done ++ [n]) : Nat) : Int)) := by
    rw [hps2, j1]
    congr 1
    funext i
    have h2 := incount_append_one ps i n done hndone
    omega
  have hF2 : (processSuccs s1 n).adjacency
      = ps.foldl (fun a pr => apushAdj pr.1 pr.2 a) [] := by
    rw [hps2, j4, hs1adj]
    exact hadj
  have hF4 : (processSuccs s1 n).readyQueue.Nodup := by
    rw [hps2]
    exact j3
  have hF3 : ∀ b, b ∈ (processSuccs s1 n).readyQueue
      ↔ b ∈ ns ∧ b ∉ done ++ [n] ∧ incount ps b (done ++ [n]) = 0 := by
    intro b
    rw [hps2, j2 b, hs1q]
    have hio := incount_append_one ps b n done hndone
    constructor
    · rintro (h | ⟨hbL, hgb⟩)
      · have hbq : b ∈ s.readyQueue := by
          rw [hq]
          exact List.mem_cons_of_mem n h
        obtain ⟨hbns, hbnd, hb0⟩ := (hqiff b).mp hbq
        have hbn : b ≠ n := by
          intro habs
          rw [habs] at h
          exact hnrest h
        refine ⟨hbns, ?_, ?_⟩
        · intro habs
          rcases List.mem_append.mp habs with h2 | h2
          · exact hbnd h2
          · exact hbn (List.mem_singleton.mp h2)
        · have h3 := hmono b
          omega
      · have hbns : b ∈ ns := hmemL b hbL
        have hcnt : incount ps b done = (psuccs ps n).count b := by
          exact_mod_cast hgb
        have hpos := List.count_pos_iff.mpr hbL
        have hbnd : b ∉ done := by
          intro habs
          have h2 := hd0 b habs
          omega
        have hbn : b ≠ n := by
          obtain ⟨pr, hpr, h1, h2⟩ := psuccs_mem_pair ps n b hbL
          intro habs
          have h3 := hrank pr hpr
          rw [h1, h2, habs] at h3
          exact lt_irrefl _ h3
        refine ⟨hbns, ?_, ?_⟩
        · intro habs
          rcases List.mem_append.mp habs with h2 | h2
          · exact hbnd h2
          · exact hbn (List.mem_singleton.mp h2)
        · omega
    · rintro ⟨hbns, hbnd2, hb02⟩
      have hbnd : b ∉ done := by
        intro habs
        exact hbnd2 (List.mem_append.mpr (Or.inl habs))
      have hbn : b ≠ n := by
        intro habs
        exact hbnd2 (List.mem_append.mpr (Or.inr (List.mem_singleton.mpr habs)))
      by_cases hc : incount ps b done = 0
      · have hbq : b ∈ s.readyQueue := (hqiff b).mpr ⟨hbns, hbnd, hc⟩
        rw [hq] at hbq
        rcases List.mem_cons.mp hbq with h2 | h2
        · exact absurd h2 hbn
        · exact Or.inl h2
      · have hcl : (psuccs ps n).count b = incount ps b done := by omega
        have hbL : b ∈ psuccs ps n := by
          apply List.count_pos_iff.mp
          omega
        refine Or.inr ⟨hbL, ?_⟩
        exact_mod_cast hcl.symm
  have hF5 : (processSuccs s1 n).remainingNodes
      = (ns.length : Int) - (done.length : Int) := by
    rw [hps2, j5, hs1rem]
    exact hrem
  have hF6 : (processSuccs s1 n).executing = s.executing := by
    rw [hps2, j6]
    exact hs1ex
  have hF7 : (processSuccs s1 n).events
      = (done ++ [n]).flatMap (fun d => executeNode m d) := by
    rw [hps2, j7, hs1ev, hev]
    rw [List.flatMap_append]
    congr 1
    show executeNode m n = [n].flatMap (fun d => executeNode m d)
    rw [List.flatMap_cons]
    show executeNode m n = executeNode m n ++ [].flatMap (fun d => executeNode m d)
    rw [List.flatMap_nil, List.append_nil]
  by_cases hfin : (processSuccs s1 n).remainingNodes - 1 ≤ 0
  · rw [if_pos hfin]
    refine ⟨hdn2, hds2, hd02, hF1, hF2, hF4, hF3, ?_, ?_, hF7⟩
    · show (processSuccs s1 n).remainingNodes - 1
        = (ns.length : Int) - ((done ++ [n]).length : Int)
      rw [hF5]
      simp only [List.length_append, List.length_singleton]
      push_cast
      ring
    · intro habs
      exfalso
      rw [hF5] at hfin
      simp only [List.length_append, List.length_singleton] at habs
      omega
  · rw [if_neg hfin]
    refine ⟨hdn2, hds2, hd02, hF1, hF2, hF4, hF3, ?_, ?_, hF7⟩
    · show (processSuccs s1 n).remainingNodes - 1
        = (ns.length : Int) - ((done ++ [n]).length : Int)
      rw [hF5]
      simp only [List.length_append, List.length_singleton]
      push_cast
      ring
    · intro habs
      show (processSuccs s1 n).executing = true
      rw [hF6]
      apply hex
      simp only [List.length_append, List.length_singleton] at habs
      omega

theorem queue_nonempty (m : AIModel) (ns : List Int) (ps : List (Int × Int))
    (hnd : ns.Nodup)
    (hclosed : ∀ pr ∈ ps, pr.1 ∈ ns ∧ pr.2 ∈ ns)
    (rank : Int → Nat)
    (hrank : ∀ pr ∈ ps, rank pr.1 < rank pr.2)
    (done : List Int) (s : RunState)
    (hinv : SchedInv m ns ps done s)
    (hlt : done.length < ns.length) :
    s.readyQueue ≠ [] := by
  obtain ⟨hdn, hds, hd0, hind, hadj, hqn, hqiff, hrem, hex, hev⟩ := hinv
  have hundone : ∃ u ∈ ns, u ∉ done := by
    by_contra habs
    push_neg at habs
    have h2 := nodup_subset_length ns done hnd habs
    omega
  obtain ⟨w, hwns, hwnd⟩ := hundone
  have hwU : w ∈ ns.filter (fun i => !(done.contains i)) := by
    apply List.mem_filter.mpr
    refine ⟨hwns, ?_⟩
    rw [contains_eq_false_of_not_mem hwnd]
    rfl
  cases hU : ns.filter (fun i => !(done.contains i)) with
  | nil =>
    rw [hU] at hwU
    cases hwU
  | cons a t =>
    obtain ⟨u, hu, hmin⟩ := existsMinBy rank t a
    rw [← hU] at hu hmin
    have h2 := List.mem_filter.mp hu
    have huns : u ∈ ns := h2.1
    have hund : u ∉ done := by
      intro habs
      have h3 := h2.2
      rw [contains_of_mem habs] at h3
      cases h3
    by_cases hc : incount ps u done = 0
    · have huq : u ∈ s.readyQueue := (hqiff u).mpr ⟨huns, hund, hc⟩
      intro habs
      rw [habs] at huq
      cases huq
    · obtain ⟨pr, hpr, hsnd, hfst⟩ := incount_pos_pair ps u done (by omega)
      have hprns := hclosed pr hpr
      have hprU : pr.1 ∈ ns.filter (fun i => !(done.contains i)) := by
        apply List.mem_filter.mpr
        refine ⟨hprns.1, ?_⟩
        rw [contains_eq_false_of_not_mem hfst]
        rfl
      have h3 := hmin pr.1 hprU
      have h4 := hrank pr hpr
      rw [hsnd] at h4
      omega

theorem execLoop_run (m : AIModel) (ns : List Int) (ps : List (Int × Int))
    (hnd : ns.Nodup)
    (hclosed : ∀ pr ∈ ps, pr.1 ∈ ns ∧ pr.2 ∈ ns)
    (rank : Int → Nat)
    (hrank : ∀ pr ∈ ps, rank pr.1 < rank pr.2) :
    ∀ (fuel : Nat) (done : List Int) (s : RunState),
      SchedInv m ns ps done s → ns.length ≤ done.length + fuel →
      ∃ done2, SchedInv m ns ps done2 (execLoop m fuel s)
        ∧ done2.length = ns.length := by
  intro fuel
  induction fuel with
  | zero =>
    intro done s hinv hle
    have hdlen : done.length ≤ ns.length :=
      nodup_subset_length done ns hinv.1 hinv.2.1
    exact ⟨done, hinv, by omega⟩
  | succ fuel ih =>
    intro done s hinv hle
    by_cases hfull : ns.length ≤ done.length
    · have hqe : s.readyQueue = [] := by
        cases hqc : s.readyQueue with
        | nil => rfl
        | cons b rest =>
          exfalso
          have hbq : b ∈ s.readyQueue := by
            rw [hqc]
            exact List.mem_cons_self b rest
          obtain ⟨hbns, hbnd, -⟩ := (hinv.2.2.2.2.2.2.1 b).mp hbq
          have h2 : (b :: done).Nodup := List.nodup_cons.mpr ⟨hbnd, hinv.1⟩
          have h3 : ∀ x ∈ b :: done, x ∈ ns := by
            intro x hx
            rcases List.mem_cons.mp hx with h | h
            · exact h ▸ hbns
            · exact hinv.2.1 x h
          have h4 := nodup_subset_length (b :: done) ns h2 h3
          simp only [List.length_cons] at h4
          omega
      have h1 : execLoop m (fuel + 1) s
          = if s.executing then
              (match s.readyQueue with
                | [] => s
                | nodeId :: rest2 => execLoop m fuel (execOnce m s nodeId rest2))
            else s := rfl
      have hloop : execLoop m (fuel + 1) s = s := by
        rw [h1, hqe]
        cases hex2 : s.executing
        · rfl
        · rfl
      rw [hloop]
      have hdlen := nodup_subset_length done ns hinv.1 hinv.2.1
      exact ⟨done, hinv, by omega⟩
    · push_neg at hfull
      have hexec : s.executing = true := hinv.2.2.2.2.2.2.2.2.1 hfull
      have hqne : s.readyQueue ≠ [] :=
        queue_nonempty m ns ps hnd hclosed rank hrank done s hinv hfull
      cases hqc : s.readyQueue with
      | nil => exact absurd hqc hqne
      | cons n rest =>
        have hstep := execOnce_inv m ns ps hnd hclosed rank hrank done s n rest hinv hqc
        have h1 : execLoop m (fuel + 1) s
            = if s.executing then
                (match s.readyQueue with
                  | [] => s
                  | nodeId :: rest2 => execLoop m fuel (execOnce m s nodeId rest2))
              else s := rfl
        have hloop : execLoop m (fuel + 1) s
            = execLoop m fuel (execOnce m s n rest) := by
          rw [h1, hexec, hqc]
          rfl
        rw [hloop]
        apply ih (done ++ [n]) (execOnce m s n rest) hstep
        simp only [List.length_append, List.length_singleton]
        omega

theorem startExecution_inv (m : AIModel)
    (hnd : (m.nodes.map AINode.id).Nodup)
    (hclosed : ∀ pr ∈ edgePairs m,
      pr.1 ∈ m.nodes.map AINode.id ∧ pr.2 ∈ m.nodes.map AINode.id)
    (rank : Int → Nat)
    (hrank : ∀ pr ∈ edgePairs m, rank pr.1 < rank pr.2) :
    (startExecution m).1 = m
    ∧ SchedInv m (m.nodes.map AINode.id) (edgePairs m) [] (startExecution m).2 := by
  have hbuild := buildSchedGraph_eq m hnd hclosed
  have hready : ((buildSchedGraph m).1.filter (fun p => p.2 == 0)).map Prod.fst
      = (m.nodes.map AINode.id).filter
          (fun i => ((incount (edgePairs m) i [] : Nat) : Int) == 0) := by
    rw [hbuild]
    show List.map Prod.fst
        (List.filter (fun p => p.2 == 0)
          ((m.nodes.map AINode.id).map
            (fun i => (i, ((incount (edgePairs m) i [] : Nat) : Int)))))
      = (m.nodes.map AINode.id).filter
          (fun i => ((incount (edgePairs m) i [] : Nat) : Int) == 0)
    rw [List.filter_map, List.map_map]
    have h1 : (Prod.fst ∘ fun i : Int =>
        (i, ((incount (edgePairs m) i [] : Nat) : Int))) = id := funext fun i => rfl
    rw [h1, List.map_id]
    rfl
  have hcond : ¬(0 < m.nodes.length
      ∧ ((buildSchedGraph m).1.filter (fun p => p.2 == 0)).map Prod.fst = []) := by
    rintro ⟨hpos, hempty⟩
    rw [hready] at hempty
    cases hns : m.nodes.map AINode.id with
    | nil =>
      have h2 : (m.nodes.map AINode.id).length = 0 := by
        rw [hns]
        rfl
      rw [List.length_map] at h2
      omega
    | cons a t =>
      obtain ⟨u, hu, hmin⟩ := existsMinBy rank t a
      rw [← hns] at hu hmin
      have hu0 : incount (edgePairs m) u [] = 0 := by
        by_contra hc
        obtain ⟨pr, hpr, hsnd, -⟩ :=
          incount_pos_pair (edgePairs m) u [] (Nat.pos_of_ne_zero hc)
        have h3 := hmin pr.1 (hclosed pr hpr).1
        have h4 := hrank pr hpr
        rw [hsnd] at h4
        omega
      have hmemf : u ∈ (m.nodes.map AINode.id).filter
          (fun i => ((incount (edgePairs m) i [] : Nat) : Int) == 0) := by
        apply List.mem_filter.mpr
        refine ⟨hu, ?_⟩
        rw [hu0]
        rfl
      rw [hempty] at hmemf
      cases hmemf
  have hstart : startExecution m = (m,
      { indegree := (buildSchedGraph m).1
        adjacency := (buildSchedGraph m).2
        readyQueue := ((buildSchedGraph m).1.filter
          (fun p => p.2 == 0)).map Prod.fst
        remainingNodes := (m.nodes.length : Int)
        executing := true
        events := [] }) := by
    unfold startExecution
    dsimp only
    rw [if_neg hcond]
  refine ⟨by rw [hstart], ?_⟩
  rw [hstart]
  refine ⟨List.nodup_nil, ?_, ?_, ?_, ?_, ?_, ?_, ?_, ?_, rfl⟩
  · intro d hd
    cases hd
  · intro d hd
    cases hd
  · show (buildSchedGraph m).1 = _
    rw [hbuild]
  · show (buildSchedGraph m).2 = _
    rw [hbuild]
  · show (((buildSchedGraph m).1.filter (fun p => p.2 == 0)).map Prod.fst).Nodup
    rw [hready]
    exact hnd.filter _
  · intro b
    show b ∈ ((buildSchedGraph m).1.filter (fun p => p.2 == 0)).map Prod.fst ↔ _
    rw [hready]
    constructor
    · intro h
      have h2 := List.mem_filter.mp h
      refine ⟨h2.1, ?_, ?_⟩
      · intro habs
        cases habs
      · have h3 := beq_iff_eq.mp h2.2
        exact_mod_cast h3
    · rintro ⟨hbns, -, hb0⟩
      apply List.mem_filter.mpr
      refine ⟨hbns, ?_⟩
      rw [hb0]
      rfl
  · show (m.nodes.length : Int) = _
    simp [List.length_map]
  · intro h2
    rfl

theorem executeNode_counts (m : AIModel) (d : Int) (node : AINode)
    (hfind : m.nodes.find? (fun n => n.id == d) = some node) :
    (∀ i : Int, completedCount (executeNode m d) i = if d = i then 1 else 0)
    ∧ completedTotal (executeNode m d) = 1 := by
  unfold completedCount completedTotal executeNode
  rw [hfind]
  dsimp only
  by_cases h1 : (node.type == "Conv2D") = true
  · rw [if_pos h1]
    obtain ⟨-, -, -, -, -, h6, h7⟩ := schedTrace_spec m d 10 (1/10)
      "Processing convolution layer" _ (by norm_num) (by norm_num) rfl
    exact ⟨h6, h7⟩
  · rw [if_neg h1]
    by_cases h2 : (node.type == "MaxPool") = true
    · rw [if_pos h2]
      obtain ⟨-, -, -, -, -, h6, h7⟩ := schedTrace_spec m d 5 (1/5)
        "Processing pooling layer" _ (by norm_num) (by norm_num) rfl
      exact ⟨h6, h7⟩
    · rw [if_neg h2]
      obtain ⟨-, -, -, -, -, h6, h7⟩ := schedTrace_spec m d 8 (1/8)
        ("Processing " ++ node.type) _ (by norm_num) (by norm_num) rfl
      exact ⟨h6, h7⟩

theorem completedCount_append (l1 l2 : List ExecutionProgress) (i : Int) :
    completedCount (l1 ++ l2) i = completedCount l1 i + completedCount l2 i := by
  unfold completedCount
  rw [List.filter_append, List.length_append]

theorem completedTotal_append (l1 l2 : List ExecutionProgress) :
    completedTotal (l1 ++ l2) = completedTotal l1 + completedTotal l2 := by
  unfold completedTotal
  rw [List.filter_append, List.length_append]

theorem flatMap_completedCount (m : AIModel) (ds : List Int) (i : Int)
    (hfind : ∀ d ∈ ds, ∃ node, m.nodes.find? (fun n => n.id == d) = some node) :
    completedCount (ds.flatMap (fun d => executeNode m d)) i = ds.count i := by
  induction ds with
  | nil => rfl
  | cons d t ih =>
    rw [List.flatMap_cons, completedCount_append]
    obtain ⟨node, hnode⟩ := hfind d (List.mem_cons_self d t)
    have hc := (executeNode_counts m d node hnode).1 i
    rw [hc, ih (fun x hx => hfind x (List.mem_cons_of_mem d hx))]
    rw [List.count_cons]
    by_cases hdi : d = i
    · rw [if_pos hdi, if_pos (beq_iff_eq.mpr hdi)]
      omega
    · rw [if_neg hdi, if_neg (fun h => hdi (beq_iff_eq.mp h))]
      omega

theorem flatMap_completedTotal (m : AIModel) (ds : List Int)
    (hfind : ∀ d ∈ ds, ∃ node, m.nodes.find? (fun n => n.id == d) = some node) :
    completedTotal (ds.flatMap (fun d => executeNode m d)) = ds.length := by
  induction ds with
  | nil => rfl
  | cons d t ih =>
    rw [List.flatMap_cons, completedTotal_append]
    obtain ⟨node, hnode⟩ := hfind d (List.mem_cons_self d t)
    have hc := (executeNode_counts m d node hnode).2
    rw [hc, ih (fun x hx => hfind x (List.mem_cons_of_mem d hx))]
    rw [List.length_cons]
    omega

/-- C1: on a store with distinct node ids, ports owned by existing
nodes, and an acyclic dependency graph (witnessed by a rank function
increasing along every resolved edge), `StartExecution` followed by the
worker loop leaves the store untouched, executes every node exactly
once — exactly one `completed` event per node id — and delivers a total
`completed` count equal to the node count. -/
theorem C1_acyclic_execution (m : AIModel)
    (hnd : (m.nodes.map AINode.id).Nodup)
    (hports : ∀ p ∈ m.allPorts, ∃ nd ∈ m.nodes, p.nodeId = nd.id)
    (rank : Int → Nat)
    (hrank : ∀ pr ∈ edgePairs m, rank pr.1 < rank pr.2) :
    (startExecution m).1 = m
    ∧ (∀ i ∈ m.nodes.map AINode.id,
        completedCount (execLoop m m.nodes.length (startExecution m).2).events i = 1)
    ∧ completedTotal (execLoop m m.nodes.length (startExecution m).2).events
        = m.nodes.length := by
  have hclosed : ∀ pr ∈ edgePairs m,
      pr.1 ∈ m.nodes.map AINode.id ∧ pr.2 ∈ m.nodes.map AINode.id := by
    intro pr hpr
    obtain ⟨e, he, hpe⟩ := List.mem_filterMap.mp hpr
    unfold pairOf at hpe
    cases hf : m.getPort e.fromPortId with
    | none =>
      rw [hf] at hpe
      cases hpe
    | some fp =>
      cases ht : m.getPort e.toPortId with
      | none =>
        rw [hf, ht] at hpe
        cases hpe
      | some tp =>
        rw [hf, ht] at hpe
        dsimp only at hpe
        have hpe2 : (fp.nodeId, tp.nodeId) = pr := by
          injection hpe
        subst hpe2
        constructor
        · obtain ⟨nd, hnd2, heq⟩ := hports fp (getPort_mem m e.fromPortId fp hf)
          exact List.mem_map.mpr ⟨nd, hnd2, heq.symm⟩
        · obtain ⟨nd, hnd2, heq⟩ := hports tp (getPort_mem m e.toPortId tp ht)
          exact List.mem_map.mpr ⟨nd, hnd2, heq.symm⟩
  obtain ⟨hm1, hinv0⟩ := startExecution_inv m hnd hclosed rank hrank
  obtain ⟨done2, hinv2, hlen2⟩ := execLoop_run m (m.nodes.map AINode.id)
    (edgePairs m) hnd hclosed rank hrank m.nodes.length [] (startExecution m).2
    hinv0 (by simp [List.length_map])
  obtain ⟨hdn2, hds2, -, -, -, -, -, -, -, hev2⟩ := hinv2
  have hcover : ∀ i ∈ m.nodes.map AINode.id, i ∈ done2 :=
    nodup_subset_full done2 (m.nodes.map AINode.id) hdn2 hnd hds2
      (le_of_eq hlen2.symm)
  have hfind : ∀ d ∈ m.nodes.map AINode.id,
      ∃ node, m.nodes.find? (fun n => n.id == d) = some node := by
    intro d hd
    obtain ⟨nd, hnd2, heq⟩ := List.mem_map.mp hd
    have hs : (m.nodes.find? (fun n => n.id == d)).isSome = true := by
      rw [List.find?_isSome]
      exact ⟨nd, hnd2, by rw [heq]; exact beq_self_eq_true _⟩
    exact Option.isSome_iff_exists.mp hs
  refine ⟨hm1, ?_, ?_⟩
  · intro i hi
    rw [hev2, flatMap_completedCount m done2 i (fun d hd => hfind d (hds2 d hd))]
    exact List.count_eq_one_of_mem hdn2 (hcover i hi)
  · rw [hev2, flatMap_completedTotal m done2 (fun d hd => hfind d (hds2 d hd))]
    rw [hlen2, List.length_map]

/-- The two-node chain used as the C1 scenario: node 1's output feeds
node 2's input. -/
def wpOut : Port := { id := 20, name := "out", dataType := "", isInput := false, nodeId := 1 }

def wpIn : Port := { id := 21, name := "in", dataType := "", isInput := true, nodeId := 2 }

def wnA : AINode :=
  { id := 1, type := "Generic", name := "A", parameters := [],
    inputPorts := [], outputPorts := [wpOut], boundUINodeId := -1 }

def wnB : AINode :=
  { id := 2, type := "Generic", name := "B", parameters := [],
    inputPorts := [wpIn], outputPorts := [], boundUINodeId := -1 }

def mChain : AIModel :=
  { nodes := [wnA, wnB],
    edges := [{ id := 200, fromPortId := 20, toPortId := 21, dataType := "" }],
    allPorts := [wpOut, wpIn], nextPortId := 22, nextEdgeId := 201 }

/-- Witness for C1 on the concrete two-node chain. -/
theorem C1_acyclic_execution_witness :
    (startExecution mChain).1 = mChain
    ∧ completedCount (execLoop mChain 2 (startExecution mChain).2).events 1 = 1
    ∧ completedCount (execLoop mChain 2 (startExecution mChain).2).events 2 = 1
    ∧ completedTotal (execLoop mChain 2 (startExecution mChain).2).events = 2 := by
  have h := C1_acyclic_execution mChain (by decide) (by decide)
    (fun i => i.toNat) (by decide)
  exact ⟨h.1, h.2.1 1 (by decide), h.2.1 2 (by decide), h.2.2⟩
